import Mathlib

/-! A verification model of the type-erased callable container
(`function<R(Args...)>`).

Shallow embedding of the repository's small-buffer-optimised `function`
wrapper (authoritative variant: the draft with explicit placement
construction and destruction on the small path, staged copy-assignment,
and immediate post-move rebinding of the moved-from source to the empty
descriptor).

The raw byte slot `storage_t` is modelled as a sum `Slot`: an inline
payload value (small path), an owning pointer into an explicit heap
(large path), or uninitialised junk.  Heap allocations are tracked in an
association list together with allocation/deallocation counters, so
leak/double-free properties are statable.  Payload values live in an
abstract type `V`; the payload's copy constructor may throw (`cpThrows`),
its call operator is `inv : V → A → R`, and a concrete payload type's
compile-time attributes (size, alignment, nothrow-move traits) live in
`TypeInfo`.
-/

namespace FunctionSpec

/-- Compile-time attributes of a concrete payload type `T`:
`sizeof(T)`, `alignof(T)`, and the two nothrow-move traits tested by
`details::fits_small`. -/
structure TypeInfo where
  size : Nat
  align : Nat
  nothrow_move_assignable : Bool
  nothrow_move_constructible : Bool
deriving DecidableEq, Repr

/-- Platform constants: `sizeof(void*)` and `alignof(void*)`, i.e. the
capacity and alignment of `storage_t = aligned_storage_t<sizeof(void*), alignof(void*)>`. -/
structure Platform where
  ptrSize : Nat
  ptrAlign : Nat
deriving DecidableEq, Repr

/-- `details::fits_small<T>`: `sizeof(T) < sizeof(storage_t) &&
alignof(storage_t) % alignof(T) == 0 && is_nothrow_move_assignable_v<T>
&& is_nothrow_move_constructible_v<T>`. -/
def fits_small (P : Platform) (t : TypeInfo) : Bool :=
  decide (t.size < P.ptrSize) && decide (P.ptrAlign % t.align = 0) &&
    t.nothrow_move_assignable && t.nothrow_move_constructible

/-- Identity of a concrete payload type: a tag plus its compile-time
attributes.  Two types with distinct tags have distinct descriptor
singletons even if their attributes agree. -/
structure Ty where
  id : Nat
  info : TypeInfo
deriving DecidableEq, Repr

/-- Heap addresses. -/
abbrev Addr := Nat

/-- Interpretation of the raw byte slot `storage_t`. -/
inductive Slot (V : Type) where
  /-- Uninitialised or destroyed bytes. -/
  | junk : Slot V
  /-- A payload object constructed in place (small path). -/
  | inline (v : V) : Slot V
  /-- An owning pointer to a heap allocation (large path). -/
  | ptr (a : Addr) : Slot V
deriving DecidableEq, Repr

/-- Lookup in the allocation association list. -/
def memLookup {V : Type} : List (Addr × V) → Addr → Option V
  | [], _ => none
  | p :: rest, a => if p.1 = a then some p.2 else memLookup rest a

/-- Remove every cell at an address (used by `delete`). -/
def memRemove {V : Type} (m : List (Addr × V)) (a : Addr) : List (Addr × V) :=
  m.filter (fun p => ¬ p.1 = a)

/-- Overwrite the cell at an address (used to model writing through a
`target<T>()` pointer). -/
def memUpdate {V : Type} (m : List (Addr × V)) (a : Addr) (v : V) : List (Addr × V) :=
  m.map (fun p => if p.1 = a then (a, v) else p)

/-- The heap of large-payload allocations, with `operator new` /
`operator delete` counters. -/
structure Heap (V : Type) where
  mem : List (Addr × V)
  next : Addr
  allocs : Nat
  frees : Nat
deriving DecidableEq, Repr

variable {V A R : Type}

/-- Dereference a heap pointer. -/
def Heap.lookup (H : Heap V) (a : Addr) : Option V :=
  memLookup H.mem a

/-- `new T(...)`: create a fresh cell, count one allocation. -/
def Heap.alloc (H : Heap V) (v : V) : Heap V × Addr :=
  ({ mem := (H.next, v) :: H.mem, next := H.next + 1,
     allocs := H.allocs + 1, frees := H.frees }, H.next)

/-- `delete p`: remove the cell, count one deallocation. -/
def Heap.free (H : Heap V) (a : Addr) : Heap V :=
  { mem := memRemove H.mem a, next := H.next,
    allocs := H.allocs, frees := H.frees + 1 }

/-- Write through a pointer to a live cell. -/
def Heap.write (H : Heap V) (a : Addr) (v : V) : Heap V :=
  { mem := memUpdate H.mem a v, next := H.next,
    allocs := H.allocs, frees := H.frees }

/-- Outcomes of a descriptor `copy` operation: the payload's copy
constructor threw, or the operation read a slot whose content does not
match the descriptor's expectation (undefined behaviour in the source;
unreachable from well-formed states). -/
inductive OpErr where
  | thrown : OpErr
  | typeConfusion : OpErr
deriving DecidableEq, Repr

/-- Result of invoking the container. -/
inductive CallRes (R : Type) where
  /-- The wrapped callable returned `r`. -/
  | ok (r : R) : CallRes R
  /-- `bad_function_call` was raised (empty container). -/
  | badCall : CallRes R
  /-- The slot was reinterpreted at the wrong type or through a dead
  pointer (undefined behaviour in the source; unreachable from
  well-formed states). -/
  | corrupt : CallRes R
deriving DecidableEq, Repr

/-- Descriptor identity.  Each concrete payload type has one
process-wide descriptor singleton, and there is one distinguished empty
descriptor per signature; pointer equality of descriptors is therefore
tag equality. -/
inductive Desc where
  | empty : Desc
  | ty (t : Ty) : Desc
deriving DecidableEq, Repr

/-- The per-type operation table `type_descriptor<R, Args...>`:
`copy(src, dst)`, `move(src, dst)`, `destroy(src)`, `invoke(src, args)`.
`copy` may allocate and may throw; `move` touches only the two slots;
`destroy` may deallocate; `invoke` reads the slot (and heap). -/
structure type_descriptor (V A R : Type) where
  copy : Heap V → Slot V → Slot V → Except OpErr (Heap V × Slot V)
  move : Slot V → Slot V → Slot V × Slot V
  destroy : Heap V → Slot V → Heap V × Slot V
  invoke : Heap V → Slot V → A → CallRes R

/-- `type_descriptor::get_empty_func_descriptor()`: no-op copy, move and
destroy; `invoke` unconditionally throws `bad_function_call`. -/
def get_empty_func_descriptor : type_descriptor V A R where
  copy := fun H _src dst => .ok (H, dst)
  move := fun src dst => (src, dst)
  destroy := fun H src => (H, src)
  invoke := fun _ _ _ => .badCall

/-- `type_descriptor::get_descriptor<T>()`: the operation table bound to
payload type `t`.  Every operation branches on `fits_small` exactly as
the source's `if constexpr (details::fits_small<T>)`.

* `copy`: small — copy-construct the inline value into `dst` (the copy
  constructor may throw); large — heap-allocate a copy of the pointee
  and store the new pointer in `dst`.
* `move`: small — move-construct into `dst`, then destroy the moved-from
  object in `src` (the source slot becomes dead bytes); large — copy the
  pointer into `dst`, leaving the stale pointer bytes in `src`.
* `destroy`: small — run the in-place destructor; large — `delete` the
  pointee (the stale pointer bytes remain in the slot).
* `invoke`: reinterpret the slot as `T` and call its call operator. -/
def get_descriptor (P : Platform) (cpThrows : V → Bool) (inv : V → A → R)
    (t : Ty) : type_descriptor V A R where
  copy := fun H src _dst =>
    if fits_small P t.info then
      match src with
      | .inline v => if cpThrows v then .error .thrown else .ok (H, .inline v)
      | _ => .error .typeConfusion
    else
      match src with
      | .ptr a =>
        match H.lookup a with
        | some v =>
          if cpThrows v then .error .thrown
          else
            let (H', a') := H.alloc v
            .ok (H', .ptr a')
        | none => .error .typeConfusion
      | _ => .error .typeConfusion
  move := fun src dst =>
    if fits_small P t.info then
      match src with
      | .inline v => (.junk, .inline v)
      | _ => (src, dst)
    else
      match src with
      | .ptr a => (src, .ptr a)
      | _ => (src, dst)
  destroy := fun H src =>
    if fits_small P t.info then
      match src with
      | .inline _ => (H, .junk)
      | _ => (H, src)
    else
      match src with
      | .ptr a => (H.free a, src)
      | _ => (H, src)
  invoke := fun H src arg =>
    if fits_small P t.info then
      match src with
      | .inline v => .ok (inv v arg)
      | _ => .corrupt
    else
      match src with
      | .ptr a =>
        match H.lookup a with
        | some v => .ok (inv v arg)
        | none => .corrupt
      | _ => .corrupt

/-- Dispatch from a descriptor tag to its singleton operation table. -/
def descOps (P : Platform) (cpThrows : V → Bool) (inv : V → A → R) :
    Desc → type_descriptor V A R
  | .empty => get_empty_func_descriptor
  | .ty t => get_descriptor P cpThrows inv t

/-- The container `function<R(Args...)>`: one slot plus one descriptor
pointer (never null — empty containers point at the empty singleton). -/
structure func (V : Type) where
  storage : Slot V
  desc : Desc
deriving DecidableEq, Repr

section Ops

variable (P : Platform) (cpThrows : V → Bool) (inv : V → A → R)

/-- Default constructor: bind the empty descriptor; the slot is
uninitialised. -/
def func_default : func V := ⟨.junk, .empty⟩

/-- `function(T val)`: bind `T`'s descriptor; place the value inline
when `fits_small<T>`, otherwise heap-allocate and store the owning
pointer. -/
def func_from_val (H : Heap V) (t : Ty) (v : V) : Heap V × func V :=
  if fits_small P t.info then (H, ⟨.inline v, .ty t⟩)
  else
    let (H', a) := H.alloc v
    (H', ⟨.ptr a, .ty t⟩)

/-- Copy constructor: adopt `other`'s descriptor and run its `copy` from
`other`'s slot into the new (uninitialised) slot.  A throwing copy
constructor propagates and the new container never exists. -/
def func_copy_ctor (H : Heap V) (other : func V) :
    Except OpErr (Heap V × func V) :=
  match (descOps P cpThrows inv other.desc).copy H other.storage .junk with
  | .error e => .error e
  | .ok (H', dst) => .ok (H', ⟨dst, other.desc⟩)

/-- Move constructor: adopt `other`'s descriptor, rebind `other` to the
empty singleton, then run the adopted descriptor's `move` from `other`'s
slot into the new slot.  Returns (the new container, `other` afterwards);
the heap is untouched. -/
def func_move_ctor (other : func V) : func V × func V :=
  let d := other.desc
  let (src', dst') := (descOps P cpThrows inv d).move other.storage .junk
  (⟨dst', d⟩, ⟨src', .empty⟩)

/-- Copy assignment (the `this != &other` case): stage the copy of
`other`'s value into a temporary slot `buf` using `other`'s descriptor,
then destroy the current value, adopt `other`'s descriptor and the
staged slot.  A throwing staged copy propagates before anything of the
target is touched. -/
def copy_assign (H : Heap V) (this other : func V) :
    Except OpErr (Heap V × func V) :=
  match (descOps P cpThrows inv other.desc).copy H other.storage .junk with
  | .error e => .error e
  | .ok (H1, buf) =>
    let (H2, _) := (descOps P cpThrows inv this.desc).destroy H1 this.storage
    .ok (H2, ⟨buf, other.desc⟩)

/-- Move assignment (the `this != &other` case): destroy the current
value, adopt `other`'s descriptor, run its `move` from `other`'s slot
into this slot, then rebind `other` to the empty singleton.  Returns
(heap, `this` afterwards, `other` afterwards). -/
def move_assign (H : Heap V) (this other : func V) :
    Heap V × func V × func V :=
  let (H1, s1) := (descOps P cpThrows inv this.desc).destroy H this.storage
  let (src', dst') := (descOps P cpThrows inv other.desc).move other.storage s1
  (H1, ⟨dst', other.desc⟩, ⟨src', .empty⟩)

/-- Destructor: run the current descriptor's `destroy` on the slot. -/
def func_destroy (H : Heap V) (f : func V) : Heap V × func V :=
  let (H', s') := (descOps P cpThrows inv f.desc).destroy H f.storage
  (H', ⟨s', f.desc⟩)

/-- `explicit operator bool()`: the current descriptor differs from the
empty singleton. -/
def op_bool (f : func V) : Bool :=
  decide (¬ f.desc = Desc.empty)

/-- `operator()(args...)`: forward to the current descriptor's
`invoke`. -/
def op_call (H : Heap V) (f : func V) (arg : A) : CallRes R :=
  (descOps P cpThrows inv f.desc).invoke H f.storage arg

/-- `target<T>()`: when `get_descriptor<T>() == desc`, reinterpret the
slot as `T` (dereferencing the owning pointer on the large path) and
return the pointee; otherwise return null (modelled as `none`). -/
def target (H : Heap V) (t : Ty) (f : func V) : Option V :=
  if f.desc = Desc.ty t then
    if fits_small P t.info then
      match f.storage with
      | .inline v => some v
      | _ => none
    else
      match f.storage with
      | .ptr a => H.lookup a
      | _ => none
  else none

/-- Write a new payload state through the pointer returned by
`target<T>()` (mutating state reachable from the stored callable). -/
def set_target (H : Heap V) (t : Ty) (f : func V) (v : V) :
    Heap V × func V :=
  if f.desc = Desc.ty t then
    if fits_small P t.info then (H, ⟨.inline v, f.desc⟩)
    else
      match f.storage with
      | .ptr a => (H.write a v, f)
      | _ => (H, f)
  else (H, f)

end Ops

/-! ## Program states and operation chains

A `World` is a heap plus the set of live containers, indexed by identity
(the index plays the role of the C++ object address, so the
`this != &other` self-assignment guard is index equality). -/

/-- A live program state. -/
structure World (V : Type) where
  heap : Heap V
  fns : Nat → Option (func V)

/-- The initial state: empty heap, no live containers. -/
def World.init : World V := ⟨⟨[], 0, 0, 0⟩, fun _ => none⟩

/-- The container operations a client can chain. -/
inductive Op (V : Type) where
  /-- Default-construct a container at a free index. -/
  | newEmpty (i : Nat) : Op V
  /-- Construct a container from a payload value at a free index. -/
  | newFn (i : Nat) (t : Ty) (v : V) : Op V
  /-- Copy-construct at free index `i` from the container at `j`. -/
  | copyCtor (i j : Nat) : Op V
  /-- Move-construct at free index `i` from the container at `j`. -/
  | moveCtor (i j : Nat) : Op V
  /-- `fns[i] = fns[j]` (copy assignment). -/
  | copyAssign (i j : Nat) : Op V
  /-- `fns[i] = std::move(fns[j])` (move assignment). -/
  | moveAssign (i j : Nat) : Op V
  /-- Run the destructor of the container at `i`. -/
  | destroyFn (i : Nat) : Op V

section Step

variable (P : Platform) (cpThrows : V → Bool) (inv : V → A → R)

/-- One operation of the container state machine.  Operations on dead or
occupied indices are no-ops; a throwing copy leaves the state unchanged
(the staged-copy order of `operator=` and the constructor contract
guarantee this in the source). -/
def step (w : World V) : Op V → World V
  | .newEmpty i =>
    match w.fns i with
    | none => ⟨w.heap, Function.update w.fns i (some func_default)⟩
    | some _ => w
  | .newFn i t v =>
    match w.fns i with
    | none =>
      let (H', f) := func_from_val P w.heap t v
      ⟨H', Function.update w.fns i (some f)⟩
    | some _ => w
  | .copyCtor i j =>
    match w.fns i, w.fns j with
    | none, some fj =>
      match func_copy_ctor P cpThrows inv w.heap fj with
      | .ok (H', fi) => ⟨H', Function.update w.fns i (some fi)⟩
      | .error _ => w
    | _, _ => w
  | .moveCtor i j =>
    match w.fns i, w.fns j with
    | none, some fj =>
      let (fi, fj') := func_move_ctor P cpThrows inv fj
      ⟨w.heap, Function.update (Function.update w.fns j (some fj')) i (some fi)⟩
    | _, _ => w
  | .copyAssign i j =>
    if i = j then w
    else
      match w.fns i, w.fns j with
      | some fi, some fj =>
        match copy_assign P cpThrows inv w.heap fi fj with
        | .ok (H', fi') => ⟨H', Function.update w.fns i (some fi')⟩
        | .error _ => w
      | _, _ => w
  | .moveAssign i j =>
    if i = j then w
    else
      match w.fns i, w.fns j with
      | some fi, some fj =>
        let (H', fi', fj') := move_assign P cpThrows inv w.heap fi fj
        ⟨H', Function.update (Function.update w.fns i (some fi')) j (some fj')⟩
      | _, _ => w
  | .destroyFn i =>
    match w.fns i with
    | some f =>
      let (H', _) := func_destroy P cpThrows inv w.heap f
      ⟨H', Function.update w.fns i none⟩
    | none => w

/-- Run a chain of operations. -/
def run (w : World V) : List (Op V) → World V :=
  List.foldl (step P cpThrows inv) w

end Step

/-! ## Well-formedness -/

/-- The container `f` owns heap address `a`: it holds a large payload
whose slot stores the owning pointer `a`. -/
def ownsAddr (P : Platform) (f : func V) (a : Addr) : Prop :=
  ∃ t, f.desc = Desc.ty t ∧ fits_small P t.info = false ∧
    f.storage = Slot.ptr a

/-- Slot shape matches the bound descriptor, and large pointers are
live. -/
def FnWF (P : Platform) (H : Heap V) (f : func V) : Prop :=
  ∀ t, f.desc = Desc.ty t →
    (fits_small P t.info = true → ∃ v, f.storage = Slot.inline v) ∧
    (fits_small P t.info = false →
      ∃ a, f.storage = Slot.ptr a ∧ (H.lookup a).isSome = true)

/-- Heap sanity: allocation keys are distinct and below the next-fresh
address. -/
def HeapWF (H : Heap V) : Prop :=
  (H.mem.map Prod.fst).Nodup ∧ ∀ p ∈ H.mem, p.1 < H.next

/-- The global ownership invariant of a program state: every live
container is well formed; two distinct containers never own the same
allocation; every heap cell is owned by some container and every owned
address is live (no leak, no dangling owner); the heap is sane; and the
allocation counters balance the live cell count (every allocation has
been deallocated exactly once except those still live). -/
structure Inv (P : Platform) (w : World V) : Prop where
  wf : ∀ i f, w.fns i = some f → FnWF P w.heap f
  distinct : ∀ i j fi fj a b, i ≠ j → w.fns i = some fi →
    w.fns j = some fj → ownsAddr P fi a → ownsAddr P fj b → a ≠ b
  complete : ∀ a, (w.heap.lookup a).isSome = true ↔
    ∃ i fi, w.fns i = some fi ∧ ownsAddr P fi a
  heapWF : HeapWF w.heap
  counters : w.heap.allocs = w.heap.frees + w.heap.mem.length

/-- The value a container's slot currently denotes (dereferencing the
owning pointer on the large path). -/
def stored (H : Heap V) (f : func V) : Option V :=
  match f.storage with
  | .inline v => some v
  | .ptr a => H.lookup a
  | .junk => none

/-! ## Heap lemmas -/

theorem memLookup_isSome_iff {m : List (Addr × V)} {a : Addr} :
    (memLookup m a).isSome = true ↔ a ∈ m.map Prod.fst := by
  induction m with
  | nil => simp [memLookup]
  | cons p rest ih =>
    by_cases h : p.1 = a
    · simp [memLookup, h]
    · simp [memLookup, h, ih, Ne.symm h]

theorem lookup_alloc (H : Heap V) (v : V) (b : Addr) :
    ((H.alloc v).1).lookup b =
      if H.next = b then some v else H.lookup b := rfl

theorem memRemove_cons_drop {p : Addr × V} {rest : List (Addr × V)}
    {a : Addr} (hpa : p.1 = a) :
    memRemove (p :: rest) a = memRemove rest a := by
  simp [memRemove, List.filter_cons, hpa]

theorem memRemove_cons_keep {p : Addr × V} {rest : List (Addr × V)}
    {a : Addr} (hpa : ¬ p.1 = a) :
    memRemove (p :: rest) a = p :: memRemove rest a := by
  simp [memRemove, List.filter_cons, hpa]

theorem memLookup_memRemove (m : List (Addr × V)) (a b : Addr) :
    memLookup (memRemove m a) b = if b = a then none else memLookup m b := by
  induction m with
  | nil => simp [memRemove, memLookup]
  | cons p rest ih =>
    by_cases hpa : p.1 = a
    · rw [memRemove_cons_drop hpa, ih]
      by_cases hba : b = a
      · simp [hba]
      · have hpb : ¬ p.1 = b := fun hc => hba (hc ▸ hpa)
        simp [hba, memLookup, hpb]
    · rw [memRemove_cons_keep hpa]
      by_cases hpb : p.1 = b
      · have hba : ¬ b = a := fun hc => hpa (by rw [hpb, hc])
        simp [memLookup, hpb, hba]
      · simp [memLookup, hpb, ih]

theorem lookup_free (H : Heap V) (a b : Addr) :
    (H.free a).lookup b = if b = a then none else H.lookup b :=
  memLookup_memRemove H.mem a b

theorem memRemove_map_fst_sublist (m : List (Addr × V)) (a : Addr) :
    ((memRemove m a).map Prod.fst).Sublist (m.map Prod.fst) :=
  (List.filter_sublist m).map Prod.fst

theorem memRemove_of_not_mem {m : List (Addr × V)} {a : Addr}
    (h : a ∉ m.map Prod.fst) : memRemove m a = m := by
  induction m with
  | nil => rfl
  | cons p rest ih =>
    simp only [List.map_cons, List.mem_cons, not_or] at h
    have hpa : ¬ p.1 = a := fun hc => h.1 hc.symm
    rw [memRemove_cons_keep hpa, ih h.2]

theorem length_memRemove_of_mem {m : List (Addr × V)} {a : Addr}
    (hnd : (m.map Prod.fst).Nodup) (h : a ∈ m.map Prod.fst) :
    m.length = (memRemove m a).length + 1 := by
  induction m with
  | nil => simp at h
  | cons p rest ih =>
    simp only [List.map_cons, List.nodup_cons] at hnd
    by_cases hpa : p.1 = a
    · have hnot : a ∉ rest.map Prod.fst := hpa ▸ hnd.1
      rw [memRemove_cons_drop hpa, memRemove_of_not_mem hnot]
      simp
    · have hmem : a ∈ rest.map Prod.fst := by
        rw [List.map_cons] at h
        rcases List.mem_cons.mp h with h1 | h1
        · exact absurd h1.symm hpa
        · exact h1
      rw [memRemove_cons_keep hpa]
      simp [List.length_cons, ih hnd.2 hmem]

theorem memUpdate_cons (p : Addr × V) (rest : List (Addr × V)) (a : Addr)
    (v : V) :
    memUpdate (p :: rest) a v =
      (if p.1 = a then (a, v) else p) :: memUpdate rest a v := rfl

theorem memLookup_memUpdate_ne (m : List (Addr × V)) (a b : Addr) (v : V)
    (h : ¬ b = a) : memLookup (memUpdate m a v) b = memLookup m b := by
  induction m with
  | nil => rfl
  | cons p rest ih =>
    rw [memUpdate_cons]
    by_cases hpa : p.1 = a
    · have hab : ¬ a = b := fun hc => h hc.symm
      have hpb : ¬ p.1 = b := fun hc => h (hc ▸ hpa)
      rw [if_pos hpa]
      simp [memLookup, hab, hpb, ih]
    · rw [if_neg hpa]
      by_cases hpb : p.1 = b
      · simp [memLookup, hpb]
      · simp [memLookup, hpb, ih]

theorem memLookup_memUpdate_self (m : List (Addr × V)) (a : Addr) (v : V)
    (h : (memLookup m a).isSome = true) :
    memLookup (memUpdate m a v) a = some v := by
  induction m with
  | nil => simp [memLookup] at h
  | cons p rest ih =>
    rw [memUpdate_cons]
    by_cases hpa : p.1 = a
    · rw [if_pos hpa]
      simp [memLookup]
    · rw [if_neg hpa]
      simp only [memLookup, hpa, ite_false] at h
      simp [memLookup, hpa, ih h]

theorem lookup_write_ne (H : Heap V) (a b : Addr) (v : V) (h : ¬ b = a) :
    (H.write a v).lookup b = H.lookup b :=
  memLookup_memUpdate_ne H.mem a b v h

theorem lookup_write_self (H : Heap V) (a : Addr) (v : V)
    (h : (H.lookup a).isSome = true) :
    (H.write a v).lookup a = some v :=
  memLookup_memUpdate_self H.mem a v h

theorem memLookup_mem {m : List (Addr × V)} {a : Addr} {v : V}
    (h : memLookup m a = some v) : (a, v) ∈ m := by
  induction m with
  | nil => simp [memLookup] at h
  | cons p rest ih =>
    by_cases hpa : p.1 = a
    · simp only [memLookup, hpa, ite_true] at h
      have hv : p.2 = v := by injection h
      have hp : p = (a, v) := by
        cases p
        simp only at hpa hv
        simp [hpa, hv]
      rw [← hp]
      exact List.mem_cons_self p rest
    · simp only [memLookup, hpa, ite_false] at h
      exact List.mem_cons_of_mem _ (ih h)

/-! ## Concrete instances used by witnesses -/

/-- A 64-bit platform: `sizeof(void*) = alignof(void*) = 8`. -/
def P64 : Platform := ⟨8, 8⟩

/-- A small payload type: 4 bytes, 4-aligned, nothrow-movable. -/
def tySmall : Ty := ⟨0, ⟨4, 4, true, true⟩⟩

/-- A large payload type: 16 bytes. -/
def tyBig : Ty := ⟨1, ⟨16, 8, true, true⟩⟩

/-- A payload copy constructor that never throws. -/
def noThrow : Nat → Bool := fun _ => false

/-- A payload copy constructor that always throws. -/
def alwaysThrow : Nat → Bool := fun _ => true

/-- Call semantics for witnesses: the callable adds its captured state
to the argument. -/
def addInv : Nat → Nat → Nat := fun v arg => v + arg

/-- An empty heap. -/
def H0 : Heap Nat := ⟨[], 0, 0, 0⟩

/-! ## Claims -/

/-- C6: a default-constructed container is in the Empty state: its
boolean query returns false, and invoking it with any argument raises
`bad_function_call` without any other effect. -/
theorem C6_default_constructed_empty (P : Platform) (cpThrows : V → Bool)
    (inv : V → A → R) (H : Heap V) (arg : A) :
    (func_default : func V).desc = Desc.empty ∧
    op_bool (func_default : func V) = false ∧
    op_call P cpThrows inv H (func_default : func V) arg = CallRes.badCall :=
  ⟨rfl, rfl, rfl⟩

/-- C9: the empty descriptor is the single table every empty container
of a signature dispatches through (`descOps Desc.empty` is
`get_empty_func_descriptor`); its copy, move, and destroy operations
change neither the heap, the source slot, nor the destination slot, and
its invoke operation unconditionally raises `bad_function_call` for
every argument. -/
theorem C9_empty_descriptor_noop (P : Platform) (cpThrows : V → Bool)
    (inv : V → A → R) (H : Heap V) (src dst : Slot V) (arg : A) :
    descOps P cpThrows inv Desc.empty =
      (get_empty_func_descriptor : type_descriptor V A R) ∧
    (get_empty_func_descriptor : type_descriptor V A R).copy H src dst =
      Except.ok (H, dst) ∧
    (get_empty_func_descriptor : type_descriptor V A R).move src dst =
      (src, dst) ∧
    (get_empty_func_descriptor : type_descriptor V A R).destroy H src =
      (H, src) ∧
    (get_empty_func_descriptor : type_descriptor V A R).invoke H src arg =
      CallRes.badCall :=
  ⟨rfl, rfl, rfl, rfl, rfl⟩

/-- C10: self-assignment is the identity: for a container in any state,
both `a = a` and `a = move(a)` leave the whole program state (the
container's descriptor, stored value, the heap) unchanged — in
particular the held value is not destroyed. -/
theorem C10_self_assignment_identity (P : Platform) (cpThrows : V → Bool)
    (inv : V → A → R) (w : World V) (i : Nat) :
    step P cpThrows inv w (Op.copyAssign i i) = w ∧
    step P cpThrows inv w (Op.moveAssign i i) = w := by
  constructor <;> simp [step]

/-- C4: for a small payload type, the descriptor's move operation
move-constructs the value into the destination slot and then destroys
the moved-from object in the source slot (the source slot becomes dead
bytes — no byte-copy shortcut); consequently after move construction the
source container is empty with a dead slot, and no live object remains
in it. -/
theorem C4_small_move_destroys_source (P : Platform) (cpThrows : V → Bool)
    (inv : V → A → R) (t : Ty) (v : V) (dst0 : Slot V)
    (h : fits_small P t.info = true) :
    (get_descriptor P cpThrows inv t : type_descriptor V A R).move
      (Slot.inline v) dst0 = (Slot.junk, Slot.inline v) ∧
    func_move_ctor P cpThrows inv (⟨Slot.inline v, Desc.ty t⟩ : func V) =
      (⟨Slot.inline v, Desc.ty t⟩, ⟨Slot.junk, Desc.empty⟩) := by
  constructor
  · simp [get_descriptor, h]
  · simp [func_move_ctor, descOps, get_descriptor, h]

theorem C4_small_move_destroys_source_witness :
    fits_small P64 tySmall.info = true ∧
    (get_descriptor P64 noThrow addInv tySmall :
        type_descriptor Nat Nat Nat).move (Slot.inline 7) Slot.junk =
      (Slot.junk, Slot.inline 7) :=
  ⟨by decide,
   (C4_small_move_destroys_source P64 noThrow addInv tySmall 7 Slot.junk
     (by decide)).1⟩

/-- A world with two small-payload containers at indices 0 and 1, used
by witnesses. -/
def w2 : World Nat :=
  ⟨H0, fun n =>
    if n = 0 then some ⟨Slot.inline 1, Desc.ty tySmall⟩
    else if n = 1 then some ⟨Slot.inline 2, Desc.ty tySmall⟩ else none⟩

/-- C1: copy assignment is exception-safe.  The copy of the source's
value is staged through the source's descriptor's copy operation before
the target's value is destroyed, so if that staged copy raises, the
whole state — the target's descriptor, stored value, the heap, and hence
the target's invocation behaviour — is exactly as before the
assignment. -/
theorem C1_copy_assign_exception_safe (P : Platform) (cpThrows : V → Bool)
    (inv : V → A → R) (w : World V) (i j : Nat) (fi fj : func V) (e : OpErr)
    (hi : w.fns i = some fi) (hj : w.fns j = some fj)
    (hthrow : (descOps P cpThrows inv fj.desc).copy w.heap fj.storage
      Slot.junk = Except.error e) :
    step P cpThrows inv w (Op.copyAssign i j) = w ∧
    (step P cpThrows inv w (Op.copyAssign i j)).fns i = some fi ∧
    ∀ arg : A,
      op_call P cpThrows inv (step P cpThrows inv w (Op.copyAssign i j)).heap
        fi arg = op_call P cpThrows inv w.heap fi arg := by
  have hstep : step P cpThrows inv w (Op.copyAssign i j) = w := by
    by_cases hij : i = j
    · simp [step, hij]
    · simp [step, hij, hi, hj, copy_assign, hthrow]
  exact ⟨hstep, by rw [hstep]; exact hi, fun arg => by rw [hstep]⟩

theorem C1_copy_assign_exception_safe_witness :
    w2.fns 0 = some ⟨Slot.inline 1, Desc.ty tySmall⟩ ∧
    w2.fns 1 = some ⟨Slot.inline 2, Desc.ty tySmall⟩ ∧
    (descOps P64 alwaysThrow addInv (Desc.ty tySmall)).copy w2.heap
      (Slot.inline 2) Slot.junk = Except.error OpErr.thrown ∧
    step P64 alwaysThrow addInv w2 (Op.copyAssign 0 1) = w2 := by
  have h := C1_copy_assign_exception_safe P64 alwaysThrow addInv w2 0 1
    ⟨Slot.inline 1, Desc.ty tySmall⟩ ⟨Slot.inline 2, Desc.ty tySmall⟩
    OpErr.thrown rfl rfl rfl
  exact ⟨rfl, rfl, rfl, h.1⟩

/-- C3: a payload type is classified small exactly when its size is
strictly below the slot capacity, the slot alignment is a multiple of
its alignment, and both its move-construction and move-assignment are
non-throwing; construct-from-value places the value inline exactly when
this predicate holds, otherwise makes exactly one heap allocation and
stores the owning pointer in the slot; and the produced slot always
matches the shape expected by the descriptor bound for the type
(`FnWF`). -/
theorem C3_small_classification (P : Platform) (t : Ty) (H : Heap V)
    (v : V) :
    (fits_small P t.info = true ↔
      t.info.size < P.ptrSize ∧ P.ptrAlign % t.info.align = 0 ∧
      t.info.nothrow_move_assignable = true ∧
      t.info.nothrow_move_constructible = true) ∧
    (fits_small P t.info = true →
      func_from_val P H t v = (H, ⟨Slot.inline v, Desc.ty t⟩)) ∧
    (fits_small P t.info = false →
      func_from_val P H t v =
        ({ mem := (H.next, v) :: H.mem, next := H.next + 1,
           allocs := H.allocs + 1, frees := H.frees },
         ⟨Slot.ptr H.next, Desc.ty t⟩)) ∧
    ((func_from_val P H t v).2.storage = Slot.inline v ↔
      fits_small P t.info = true) ∧
    FnWF P (func_from_val P H t v).1 (func_from_val P H t v).2 := by
  refine ⟨?_, ?_, ?_, ?_, ?_⟩
  · simp [fits_small, Bool.and_eq_true, decide_eq_true_eq, and_assoc]
  · intro h
    simp [func_from_val, h]
  · intro h
    simp [func_from_val, h, Heap.alloc]
  · by_cases h : fits_small P t.info = true
    · simp [func_from_val, h]
    · have h' : fits_small P t.info = false := by simpa using h
      simp [func_from_val, h', Heap.alloc]
  · intro t' ht'
    by_cases h : fits_small P t.info = true
    · have hval : func_from_val P H t v = (H, ⟨Slot.inline v, Desc.ty t⟩) := by
        simp [func_from_val, h]
      rw [hval] at ht' ⊢
      have htt : t = t' := by injection ht'
      subst htt
      exact ⟨fun _ => ⟨v, rfl⟩, fun hc => absurd hc (by simp [h])⟩
    · have h' : fits_small P t.info = false := by simpa using h
      have hval : func_from_val P H t v =
          ({ mem := (H.next, v) :: H.mem, next := H.next + 1,
             allocs := H.allocs + 1, frees := H.frees },
           ⟨Slot.ptr H.next, Desc.ty t⟩) := by
        simp [func_from_val, h', Heap.alloc]
      rw [hval] at ht' ⊢
      have htt : t = t' := by injection ht'
      subst htt
      refine ⟨fun hc => absurd hc (by simp [h']), fun _ => ⟨H.next, rfl, ?_⟩⟩
      simp [Heap.lookup, memLookup]

/-- C5: `target<T>()` returns (a pointer to) the stored value exactly
when the container's current descriptor equals `T`'s descriptor; in
every other case — holding a different type, or Empty — it returns null
and never reinterprets the storage across a type mismatch. -/
theorem C5_target_exact_type (P : Platform) (H : Heap V) (t : Ty)
    (f : func V) (hwf : FnWF P H f) :
    (f.desc = Desc.ty t →
      target P H t f = stored H f ∧ (target P H t f).isSome = true) ∧
    (f.desc ≠ Desc.ty t → target P H t f = none) := by
  constructor
  · intro hd
    have h := hwf t hd
    by_cases hf : fits_small P t.info = true
    · obtain ⟨v, hv⟩ := h.1 hf
      simp [target, hd, hf, stored, hv]
    · have hf' : fits_small P t.info = false := by simpa using hf
      obtain ⟨a, ha, hl⟩ := h.2 hf'
      simp [target, hd, hf', stored, ha, hl]
  · intro hd
    simp [target, hd]

theorem C5_target_exact_type_witness :
    FnWF P64 H0 (⟨Slot.inline 5, Desc.ty tySmall⟩ : func Nat) ∧
    target P64 H0 tySmall (⟨Slot.inline 5, Desc.ty tySmall⟩ : func Nat) =
      some 5 ∧
    target P64 H0 tyBig (⟨Slot.inline 5, Desc.ty tySmall⟩ : func Nat) =
      none := by
  have hwf : FnWF P64 H0 (⟨Slot.inline 5, Desc.ty tySmall⟩ : func Nat) := by
    intro t ht
    have htt : tySmall = t := by injection ht
    subst htt
    exact ⟨fun _ => ⟨5, rfl⟩, fun hc => absurd hc (by decide)⟩
  have h := C5_target_exact_type P64 H0 tySmall
    (⟨Slot.inline 5, Desc.ty tySmall⟩ : func Nat) hwf
  have h2 := C5_target_exact_type P64 H0 tyBig
    (⟨Slot.inline 5, Desc.ty tySmall⟩ : func Nat) hwf
  exact ⟨hwf, ((h.1 rfl).1).trans rfl, h2.2 (by decide)⟩

/-- Destroying a container that owns no allocation at `p` leaves the
heap's cell at `p` untouched. -/
theorem destroy_heap_lookup (P : Platform) (cpThrows : V → Bool)
    (inv : V → A → R) (H : Heap V) (tgt : func V) (p : Addr)
    (hdis : ∀ q, ownsAddr P tgt q → p ≠ q) :
    (((descOps P cpThrows inv tgt.desc).destroy H tgt.storage).1).lookup p =
      H.lookup p := by
  cases hd : tgt.desc with
  | empty => rfl
  | ty s =>
    by_cases hf : fits_small P s.info = true
    · cases hs : tgt.storage <;> simp [descOps, get_descriptor, hf]
    · have hf' : fits_small P s.info = false := by simpa using hf
      cases hs : tgt.storage with
      | junk => simp [descOps, get_descriptor, hf']
      | inline v => simp [descOps, get_descriptor, hf']
      | ptr q =>
        have hpq : p ≠ q := hdis q ⟨s, hd, hf', hs⟩
        simp [descOps, get_descriptor, hf', lookup_free, hpq]

/-- C2: moving empties the source.  After move construction from `a`, or
move assignment of `a` into a target owning no allocation shared with
`a`, the source's boolean query is false, invoking it raises
`bad_function_call`, destroying it is a no-op on the heap (safe), and
the destination's boolean query and invocation results are exactly
`a`'s from before the move. -/
theorem C2_move_empties_source (P : Platform) (cpThrows : V → Bool)
    (inv : V → A → R) (H : Heap V) (a : func V) (hwf : FnWF P H a)
    (arg : A) :
    ((func_move_ctor P cpThrows inv a).2.desc = Desc.empty ∧
     op_bool (func_move_ctor P cpThrows inv a).2 = false ∧
     op_call P cpThrows inv H (func_move_ctor P cpThrows inv a).2 arg =
       CallRes.badCall ∧
     func_destroy P cpThrows inv H (func_move_ctor P cpThrows inv a).2 =
       (H, (func_move_ctor P cpThrows inv a).2) ∧
     op_bool (func_move_ctor P cpThrows inv a).1 = op_bool a ∧
     op_call P cpThrows inv H (func_move_ctor P cpThrows inv a).1 arg =
       op_call P cpThrows inv H a arg) ∧
    (∀ tgt : func V,
      (∀ p q, ownsAddr P a p → ownsAddr P tgt q → p ≠ q) →
      (move_assign P cpThrows inv H tgt a).2.2.desc = Desc.empty ∧
      op_bool (move_assign P cpThrows inv H tgt a).2.2 = false ∧
      op_call P cpThrows inv (move_assign P cpThrows inv H tgt a).1
        (move_assign P cpThrows inv H tgt a).2.2 arg = CallRes.badCall ∧
      op_bool (move_assign P cpThrows inv H tgt a).2.1 = op_bool a ∧
      op_call P cpThrows inv (move_assign P cpThrows inv H tgt a).1
        (move_assign P cpThrows inv H tgt a).2.1 arg =
        op_call P cpThrows inv H a arg) := by
  constructor
  · cases hd : a.desc with
    | empty =>
      have he : func_move_ctor P cpThrows inv a =
          (⟨Slot.junk, Desc.empty⟩, ⟨a.storage, Desc.empty⟩) := by
        simp [func_move_ctor, hd, descOps, get_empty_func_descriptor]
      rw [he]
      refine ⟨rfl, rfl, rfl, rfl, ?_, ?_⟩
      · simp [op_bool, hd]
      · simp [op_call, hd, descOps, get_empty_func_descriptor]
    | ty t =>
      have h := hwf t hd
      by_cases hf : fits_small P t.info = true
      · obtain ⟨v, hv⟩ := h.1 hf
        have he : func_move_ctor P cpThrows inv a =
            (⟨Slot.inline v, Desc.ty t⟩, ⟨Slot.junk, Desc.empty⟩) := by
          simp [func_move_ctor, hd, descOps, get_descriptor, hf, hv]
        rw [he]
        refine ⟨rfl, rfl, rfl, rfl, ?_, ?_⟩
        · simp [op_bool, hd]
        · simp [op_call, hd, descOps, get_descriptor, hf, hv]
      · have hf' : fits_small P t.info = false := by simpa using hf
        obtain ⟨p, hp, _⟩ := h.2 hf'
        have he : func_move_ctor P cpThrows inv a =
            (⟨Slot.ptr p, Desc.ty t⟩, ⟨Slot.ptr p, Desc.empty⟩) := by
          simp [func_move_ctor, hd, descOps, get_descriptor, hf', hp]
        rw [he]
        refine ⟨rfl, rfl, rfl, rfl, ?_, ?_⟩
        · simp [op_bool, hd]
        · simp [op_call, hd, descOps, get_descriptor, hf', hp]
  · intro tgt hdis
    refine ⟨rfl, rfl, rfl, rfl, ?_⟩
    cases hd : a.desc with
    | empty =>
      simp [move_assign, op_call, hd, descOps, get_empty_func_descriptor]
    | ty t =>
      have h := hwf t hd
      by_cases hf : fits_small P t.info = true
      · obtain ⟨v, hv⟩ := h.1 hf
        simp [move_assign, op_call, hd, hv, descOps, get_descriptor, hf]
      · have hf' : fits_small P t.info = false := by simpa using hf
        obtain ⟨p, hp, _⟩ := h.2 hf'
        have hlk :
            (((descOps P cpThrows inv tgt.desc).destroy H tgt.storage).1).lookup
              p = H.lookup p :=
          destroy_heap_lookup P cpThrows inv H tgt p
            (fun q hq => hdis p q ⟨t, hd, hf', hp⟩ hq)
        rcases hds : (descOps P cpThrows inv tgt.desc).destroy H tgt.storage
          with ⟨H1, s1⟩
        have hlk1 : H1.lookup p = H.lookup p := by
          rw [hds] at hlk
          exact hlk
        have hm : move_assign P cpThrows inv H tgt a =
            (H1, ⟨Slot.ptr p, Desc.ty t⟩, ⟨Slot.ptr p, Desc.empty⟩) := by
          unfold move_assign
          rw [hds, hd, hp]
          simp [descOps, get_descriptor, hf']
        rw [hm]
        simp [op_call, hd, hp, descOps, get_descriptor, hf', hlk1]

theorem C2_move_empties_source_witness :
    FnWF P64 H0 (⟨Slot.inline 5, Desc.ty tySmall⟩ : func Nat) ∧
    op_bool (func_move_ctor P64 noThrow addInv
      (⟨Slot.inline 5, Desc.ty tySmall⟩ : func Nat)).2 = false ∧
    op_call P64 noThrow addInv H0 (func_move_ctor P64 noThrow addInv
      (⟨Slot.inline 5, Desc.ty tySmall⟩ : func Nat)).2 3 = CallRes.badCall ∧
    op_call P64 noThrow addInv H0 (func_move_ctor P64 noThrow addInv
      (⟨Slot.inline 5, Desc.ty tySmall⟩ : func Nat)).1 3 = CallRes.ok 8 := by
  have hwf : FnWF P64 H0 (⟨Slot.inline 5, Desc.ty tySmall⟩ : func Nat) := by
    intro t ht
    have htt : tySmall = t := by injection ht
    subst htt
    exact ⟨fun _ => ⟨5, rfl⟩, fun hc => absurd hc (by decide)⟩
  have h := C2_move_empties_source P64 noThrow addInv H0
    (⟨Slot.inline 5, Desc.ty tySmall⟩ : func Nat) hwf 3
  refine ⟨hwf, h.1.2.1, h.1.2.2.1, ?_⟩
  rw [h.1.2.2.2.2.2]
  rfl

/-- C7: copying produces an independent value and leaves the source
untouched: after copy construction of `b` from `a`, `a`'s descriptor,
slot and heap cell are unchanged and invoke as before, `b` invokes with
the same results as `a`, and afterwards overwriting the payload state
reachable through `a`'s `target` pointer does not affect `b`'s
invocations, and vice versa. -/
theorem C7_copy_independence (P : Platform) (cpThrows : V → Bool)
    (inv : V → A → R) (H H' : Heap V) (a b : func V)
    (hwf : FnWF P H a) (hb : ∀ p ∈ H.mem, p.1 < H.next)
    (hcopy : func_copy_ctor P cpThrows inv H a = Except.ok (H', b))
    (arg : A) (v' : V) :
    b.desc = a.desc ∧
    op_call P cpThrows inv H' a arg = op_call P cpThrows inv H a arg ∧
    op_call P cpThrows inv H' b arg = op_call P cpThrows inv H a arg ∧
    (∀ t : Ty,
      op_call P cpThrows inv (set_target P H' t a v').1 b arg =
        op_call P cpThrows inv H' b arg) ∧
    (∀ t : Ty,
      op_call P cpThrows inv (set_target P H' t b v').1 a arg =
        op_call P cpThrows inv H' a arg) := by
  cases hd : a.desc with
  | empty =>
    have hc : func_copy_ctor P cpThrows inv H a =
        Except.ok (H, ⟨Slot.junk, Desc.empty⟩) := by
      simp [func_copy_ctor, hd, descOps, get_empty_func_descriptor]
    rw [hc] at hcopy
    obtain ⟨hH, hbv⟩ : H' = H ∧ b = ⟨Slot.junk, Desc.empty⟩ := by
      injection hcopy with h1
      exact ⟨(congrArg Prod.fst h1).symm, (congrArg Prod.snd h1).symm⟩
    subst hbv
    refine ⟨rfl, ?_, ?_, ?_, ?_⟩
    · rw [hH]
    · rw [hH]
      simp [op_call, hd, descOps, get_empty_func_descriptor]
    · intro t
      rfl
    · intro t
      simp [set_target]
  | ty t0 =>
    have h := hwf t0 hd
    by_cases hf : fits_small P t0.info = true
    · obtain ⟨v, hv⟩ := h.1 hf
      by_cases hthrow : cpThrows v = true
      · exfalso
        have hc : func_copy_ctor P cpThrows inv H a =
            Except.error OpErr.thrown := by
          simp [func_copy_ctor, hd, hv, descOps, get_descriptor, hf, hthrow]
        rw [hc] at hcopy
        exact Except.noConfusion hcopy
      · have hthrow' : cpThrows v = false := by simpa using hthrow
        have hc : func_copy_ctor P cpThrows inv H a =
            Except.ok (H, ⟨Slot.inline v, Desc.ty t0⟩) := by
          simp [func_copy_ctor, hd, hv, descOps, get_descriptor, hf, hthrow']
        rw [hc] at hcopy
        obtain ⟨hH, hbv⟩ : H' = H ∧ b = ⟨Slot.inline v, Desc.ty t0⟩ := by
          injection hcopy with h1
          exact ⟨(congrArg Prod.fst h1).symm, (congrArg Prod.snd h1).symm⟩
        subst hbv
        refine ⟨rfl, ?_, ?_, ?_, ?_⟩
        · rw [hH]
        · rw [hH]
          simp [op_call, hd, hv, descOps, get_descriptor, hf]
        · intro t
          have hts : (set_target P H' t a v').1 = H' := by
            by_cases hta : a.desc = Desc.ty t
            · rw [hd] at hta
              have htt : t0 = t := by injection hta
              subst htt
              simp [set_target, hd, hf]
            · simp [set_target, hta]
          rw [hts]
        · intro t
          have hts :
              (set_target P H' t (⟨Slot.inline v, Desc.ty t0⟩ : func V) v').1 =
                H' := by
            by_cases hta :
                (⟨Slot.inline v, Desc.ty t0⟩ : func V).desc = Desc.ty t
            · have htt : t0 = t := by injection hta
              subst htt
              simp [set_target, hf]
            · simp [set_target, hta]
          rw [hts]
    · have hf' : fits_small P t0.info = false := by simpa using hf
      obtain ⟨p, hp, hlive⟩ := h.2 hf'
      obtain ⟨v, hvl⟩ := Option.isSome_iff_exists.mp hlive
      have hplt : p < H.next := hb (p, v) (memLookup_mem hvl)
      have hne : ¬ H.next = p := fun hc => absurd (hc ▸ hplt) (lt_irrefl _)
      have hne' : ¬ p = H.next := fun hc => hne hc.symm
      by_cases hthrow : cpThrows v = true
      · exfalso
        have hc : func_copy_ctor P cpThrows inv H a =
            Except.error OpErr.thrown := by
          simp [func_copy_ctor, hd, hp, descOps, get_descriptor, hf', hvl,
            hthrow]
        rw [hc] at hcopy
        exact Except.noConfusion hcopy
      · have hthrow' : cpThrows v = false := by simpa using hthrow
        have hc : func_copy_ctor P cpThrows inv H a =
            Except.ok
              ({ mem := (H.next, v) :: H.mem, next := H.next + 1,
                 allocs := H.allocs + 1, frees := H.frees },
               ⟨Slot.ptr H.next, Desc.ty t0⟩) := by
          simp [func_copy_ctor, hd, hp, descOps, get_descriptor, hf', hvl,
            hthrow', Heap.alloc]
        rw [hc] at hcopy
        obtain ⟨hH, hbv⟩ : H' =
            ({ mem := (H.next, v) :: H.mem, next := H.next + 1,
               allocs := H.allocs + 1, frees := H.frees } : Heap V) ∧
            b = ⟨Slot.ptr H.next, Desc.ty t0⟩ := by
          injection hcopy with h1
          exact ⟨(congrArg Prod.fst h1).symm, (congrArg Prod.snd h1).symm⟩
        subst hbv
        have hlp : H'.lookup p = H.lookup p := by
          rw [hH]
          simp [Heap.lookup, memLookup, hne]
        have hln : H'.lookup H.next = some v := by
          rw [hH]
          simp [Heap.lookup, memLookup]
        refine ⟨rfl, ?_, ?_, ?_, ?_⟩
        · simp [op_call, hd, hp, descOps, get_descriptor, hf', hlp]
        · simp [op_call, hd, hp, descOps, get_descriptor, hf', hln, hvl, hlp]
        · intro t
          by_cases hta : a.desc = Desc.ty t
          · rw [hd] at hta
            have htt : t0 = t := by injection hta
            subst htt
            have hts : (set_target P H' t0 a v').1 = H'.write p v' := by
              simp [set_target, hd, hf', hp]
            rw [hts]
            have hlw : (H'.write p v').lookup H.next = some v :=
              (lookup_write_ne H' p H.next v' hne).trans hln
            simp [op_call, descOps, get_descriptor, hf', hlw, hln]
          · have hts : (set_target P H' t a v').1 = H' := by
              simp [set_target, hta]
            rw [hts]
        · intro t
          by_cases hta :
              (⟨Slot.ptr H.next, Desc.ty t0⟩ : func V).desc = Desc.ty t
          · have htt : t0 = t := by injection hta
            subst htt
            have hts :
                (set_target P H' t0 (⟨Slot.ptr H.next, Desc.ty t0⟩ : func V)
                  v').1 = H'.write H.next v' := by
              simp [set_target, hf']
            rw [hts]
            have hlw2 : (H'.write H.next v').lookup p = H.lookup p :=
              (lookup_write_ne H' H.next p v' hne').trans hlp
            simp [op_call, hd, hp, descOps, get_descriptor, hf', hlw2, hlp]
          · have hts :
                (set_target P H' t (⟨Slot.ptr H.next, Desc.ty t0⟩ : func V)
                  v').1 = H' := by
              simp [set_target, hta]
            rw [hts]

/-- A one-cell heap holding the payload state 5 at address 0. -/
def HL : Heap Nat := ⟨[(0, 5)], 1, 1, 0⟩

/-- The heap after copying the large container: a second cell at 1. -/
def HL2 : Heap Nat := ⟨[(1, 5), (0, 5)], 2, 2, 0⟩

/-- A large-payload container owning address 0. -/
def aL : func Nat := ⟨Slot.ptr 0, Desc.ty tyBig⟩

theorem C7_copy_independence_witness :
    func_copy_ctor P64 noThrow addInv HL aL =
      Except.ok (HL2, (⟨Slot.ptr 1, Desc.ty tyBig⟩ : func Nat)) ∧
    op_call P64 noThrow addInv (set_target P64 HL2 tyBig aL 100).1
      (⟨Slot.ptr 1, Desc.ty tyBig⟩ : func Nat) 3 =
      op_call P64 noThrow addInv HL2
        (⟨Slot.ptr 1, Desc.ty tyBig⟩ : func Nat) 3 ∧
    op_call P64 noThrow addInv HL2
      (⟨Slot.ptr 1, Desc.ty tyBig⟩ : func Nat) 3 = CallRes.ok 8 := by
  have hwf : FnWF P64 HL aL := by
    intro t ht
    have htt : tyBig = t := by injection ht
    subst htt
    exact ⟨fun hc => absurd hc (by decide), fun _ => ⟨0, rfl, rfl⟩⟩
  have hb : ∀ p ∈ HL.mem, p.1 < HL.next := by
    intro p hp
    have hp' : p = (0, 5) := by simpa [HL] using hp
    simp [hp', HL]
  have hcopy : func_copy_ctor P64 noThrow addInv HL aL =
      Except.ok (HL2, (⟨Slot.ptr 1, Desc.ty tyBig⟩ : func Nat)) := rfl
  have h := C7_copy_independence P64 noThrow addInv HL HL2 aL
    (⟨Slot.ptr 1, Desc.ty tyBig⟩ : func Nat) hwf hb hcopy 3 100
  exact ⟨hcopy, h.2.2.2.1 tyBig, rfl⟩

/-! ## Ownership characterization lemmas -/

theorem ownsAddr_unique {P : Platform} {f : func V} {a b : Addr}
    (ha : ownsAddr P f a) (hb : ownsAddr P f b) : a = b := by
  obtain ⟨t, _, _, hs⟩ := ha
  obtain ⟨t', _, _, hs'⟩ := hb
  rw [hs] at hs'
  injection hs'

theorem not_owns_of_empty {P : Platform} {f : func V}
    (hd : f.desc = Desc.empty) (a : Addr) : ¬ ownsAddr P f a := by
  rintro ⟨t, hdt, _, _⟩
  rw [hd] at hdt
  exact Desc.noConfusion hdt

theorem not_owns_of_small {P : Platform} {f : func V} {t : Ty}
    (hd : f.desc = Desc.ty t) (hf : fits_small P t.info = true) (a : Addr) :
    ¬ ownsAddr P f a := by
  rintro ⟨t', hdt, hft, _⟩
  rw [hd] at hdt
  have htt : t = t' := by injection hdt
  subst htt
  rw [hf] at hft
  exact Bool.noConfusion hft

theorem owns_of_large {P : Platform} {f : func V} {t : Ty} {q : Addr}
    (hd : f.desc = Desc.ty t) (hf : fits_small P t.info = false)
    (hs : f.storage = Slot.ptr q) : ownsAddr P f q :=
  ⟨t, hd, hf, hs⟩

theorem lookup_isSome_alloc {H : Heap V} {a : Addr} (v : V)
    (h : (H.lookup a).isSome = true) :
    (((H.alloc v).1).lookup a).isSome = true := by
  rw [lookup_alloc]
  by_cases hc : H.next = a
  · simp [hc]
  · simpa [hc] using h

theorem FnWF_alloc {P : Platform} {H : Heap V} {g : func V} (v : V)
    (h : FnWF P H g) : FnWF P ((H.alloc v).1) g := by
  intro t hd
  refine ⟨(h t hd).1, fun hf => ?_⟩
  obtain ⟨a, ha, hl⟩ := (h t hd).2 hf
  exact ⟨a, ha, lookup_isSome_alloc v hl⟩

theorem FnWF_free {P : Platform} {H : Heap V} {g : func V} {r : Addr}
    (h : FnWF P H g) (hno : ∀ q, ownsAddr P g q → q ≠ r) :
    FnWF P (H.free r) g := by
  intro t hd
  refine ⟨(h t hd).1, fun hf => ?_⟩
  obtain ⟨a, ha, hl⟩ := (h t hd).2 hf
  have har : a ≠ r := hno a ⟨t, hd, hf, ha⟩
  refine ⟨a, ha, ?_⟩
  rw [lookup_free, if_neg har]
  exact hl

theorem heapWF_alloc {H : Heap V} (v : V) (h : HeapWF H) :
    HeapWF ((H.alloc v).1) := by
  obtain ⟨hnd, hbd⟩ := h
  constructor
  · simp only [Heap.alloc, List.map_cons, List.nodup_cons]
    refine ⟨fun hc => ?_, hnd⟩
    obtain ⟨p, hp, hfst⟩ := List.mem_map.mp hc
    exact absurd (hfst ▸ hbd p hp) (lt_irrefl _)
  · intro p hp
    simp only [Heap.alloc] at hp ⊢
    rcases List.mem_cons.mp hp with h1 | h1
    · simp [h1]
    · exact Nat.lt_succ_of_lt (hbd p h1)

theorem heapWF_free {H : Heap V} (a : Addr) (h : HeapWF H) :
    HeapWF (H.free a) := by
  obtain ⟨hnd, hbd⟩ := h
  constructor
  · exact hnd.sublist (memRemove_map_fst_sublist H.mem a)
  · intro p hp
    exact hbd p (List.mem_of_mem_filter hp)

/-- What a successful descriptor copy into an uninitialised slot (the
stage used by copy construction and copy assignment) can produce. -/
theorem copy_stage_ok_cases {P : Platform} {cpThrows : V → Bool}
    {inv : V → A → R} {H H' : Heap V} {g : func V} {buf : Slot V}
    (hok : (descOps P cpThrows inv g.desc).copy H g.storage Slot.junk =
      Except.ok (H', buf)) :
    (g.desc = Desc.empty ∧ H' = H ∧ buf = Slot.junk) ∨
    (∃ t v, g.desc = Desc.ty t ∧ fits_small P t.info = true ∧
      g.storage = Slot.inline v ∧ H' = H ∧ buf = Slot.inline v) ∨
    (∃ t q v, g.desc = Desc.ty t ∧ fits_small P t.info = false ∧
      g.storage = Slot.ptr q ∧ H.lookup q = some v ∧
      H' = (H.alloc v).1 ∧ buf = Slot.ptr H.next) := by
  cases hd : g.desc with
  | empty =>
    rw [hd] at hok
    simp only [descOps, get_empty_func_descriptor, Except.ok.injEq,
      Prod.mk.injEq] at hok
    exact Or.inl ⟨rfl, hok.1.symm, hok.2.symm⟩
  | ty t =>
    rw [hd] at hok
    by_cases hf : fits_small P t.info = true
    · cases hs : g.storage with
      | inline v =>
        rw [hs] at hok
        by_cases hth : cpThrows v = true
        · simp [descOps, get_descriptor, hf, hth] at hok
        · have hth' : cpThrows v = false := by simpa using hth
          simp only [descOps, get_descriptor, hf, hth', Bool.false_eq_true,
            if_true, if_false, Except.ok.injEq, Prod.mk.injEq] at hok
          exact Or.inr (Or.inl ⟨t, v, rfl, hf, rfl, hok.1.symm, hok.2.symm⟩)
      | junk =>
        rw [hs] at hok
        simp [descOps, get_descriptor, hf] at hok
      | ptr q =>
        rw [hs] at hok
        simp [descOps, get_descriptor, hf] at hok
    · have hf' : fits_small P t.info = false := by simpa using hf
      cases hs : g.storage with
      | ptr q =>
        rw [hs] at hok
        cases hl : H.lookup q with
        | none =>
          simp [descOps, get_descriptor, hf', hl] at hok
        | some v =>
          by_cases hth : cpThrows v = true
          · simp [descOps, get_descriptor, hf', hl, hth] at hok
          · have hth' : cpThrows v = false := by simpa using hth
            simp only [descOps, get_descriptor, hf', hl, hth',
              Bool.false_eq_true, if_true, if_false, Except.ok.injEq,
              Prod.mk.injEq] at hok
            exact Or.inr (Or.inr
              ⟨t, q, v, rfl, hf', rfl, hl, hok.1.symm, hok.2.symm⟩)
      | junk =>
        rw [hs] at hok
        simp [descOps, get_descriptor, hf'] at hok
      | inline v =>
        rw [hs] at hok
        simp [descOps, get_descriptor, hf'] at hok

/-- What move construction from a well-formed container produces. -/
theorem func_move_ctor_wf_cases {P : Platform} {cpThrows : V → Bool}
    {inv : V → A → R} {H : Heap V} {g : func V} (hwf : FnWF P H g) :
    (g.desc = Desc.empty ∧ func_move_ctor P cpThrows inv g =
      (⟨Slot.junk, Desc.empty⟩, ⟨g.storage, Desc.empty⟩)) ∨
    (∃ t v, g.desc = Desc.ty t ∧ fits_small P t.info = true ∧
      g.storage = Slot.inline v ∧ func_move_ctor P cpThrows inv g =
        (⟨Slot.inline v, Desc.ty t⟩, ⟨Slot.junk, Desc.empty⟩)) ∨
    (∃ t q, g.desc = Desc.ty t ∧ fits_small P t.info = false ∧
      g.storage = Slot.ptr q ∧ (H.lookup q).isSome = true ∧
      func_move_ctor P cpThrows inv g =
        (⟨Slot.ptr q, Desc.ty t⟩, ⟨Slot.ptr q, Desc.empty⟩)) := by
  cases hd : g.desc with
  | empty =>
    refine Or.inl ⟨rfl, ?_⟩
    simp [func_move_ctor, hd, descOps, get_empty_func_descriptor]
  | ty t =>
    have h := hwf t hd
    by_cases hf : fits_small P t.info = true
    · obtain ⟨v, hv⟩ := h.1 hf
      refine Or.inr (Or.inl ⟨t, v, rfl, hf, hv, ?_⟩)
      simp [func_move_ctor, hd, hv, descOps, get_descriptor, hf]
    · have hf' : fits_small P t.info = false := by simpa using hf
      obtain ⟨q, hq, hl⟩ := h.2 hf'
      refine Or.inr (Or.inr ⟨t, q, rfl, hf', hq, hl, ?_⟩)
      simp [func_move_ctor, hd, hq, descOps, get_descriptor, hf']

/-- What destroying a well-formed container does to the heap. -/
theorem destroy_wf_cases {P : Platform} {cpThrows : V → Bool}
    {inv : V → A → R} {H : Heap V} {g : func V} (hwf : FnWF P H g) :
    (((descOps P cpThrows inv g.desc).destroy H g.storage).1 = H ∧
      ∀ q, ¬ ownsAddr P g q) ∨
    (∃ r, ownsAddr P g r ∧ (H.lookup r).isSome = true ∧
      ((descOps P cpThrows inv g.desc).destroy H g.storage).1 = H.free r) := by
  cases hd : g.desc with
  | empty => exact Or.inl ⟨rfl, not_owns_of_empty hd⟩
  | ty t =>
    have h := hwf t hd
    by_cases hf : fits_small P t.info = true
    · refine Or.inl ⟨?_, not_owns_of_small hd hf⟩
      cases hs : g.storage <;> simp [descOps, get_descriptor, hf]
    · have hf' : fits_small P t.info = false := by simpa using hf
      obtain ⟨r, hr, hl⟩ := h.2 hf'
      refine Or.inr ⟨r, owns_of_large hd hf' hr, hl, ?_⟩
      rw [hr]
      simp [descOps, get_descriptor, hf']

/-- Decomposition of a successful copy assignment into its staged copy
and the destruction of the old value. -/
theorem copy_assign_ok_decomp {P : Platform} {cpThrows : V → Bool}
    {inv : V → A → R} {H H2 : Heap V} {fi fj fi' : func V}
    (hok : copy_assign P cpThrows inv H fi fj = Except.ok (H2, fi')) :
    ∃ H1 buf,
      (descOps P cpThrows inv fj.desc).copy H fj.storage Slot.junk =
        Except.ok (H1, buf) ∧
      H2 = ((descOps P cpThrows inv fi.desc).destroy H1 fi.storage).1 ∧
      fi' = ⟨buf, fj.desc⟩ := by
  unfold copy_assign at hok
  cases hc : (descOps P cpThrows inv fj.desc).copy H fj.storage Slot.junk with
  | error e =>
    rw [hc] at hok
    exact Except.noConfusion hok
  | ok pair =>
    obtain ⟨H1, buf⟩ := pair
    rw [hc] at hok
    simp only [Except.ok.injEq, Prod.mk.injEq] at hok
    exact ⟨H1, buf, rfl, hok.1.symm, hok.2.symm⟩

/-- Allocating and then freeing a distinct older cell equals freeing
first and then allocating (the fresh address is unaffected). -/
theorem alloc_free_comm (H : Heap V) (v : V) (r : Addr) (hr : ¬ H.next = r) :
    ((H.alloc v).1).free r = (((H.free r).alloc v)).1 := by
  simp only [Heap.alloc, Heap.free]
  rw [memRemove_cons_keep hr]

/-- An owned address is below the heap's next-fresh address. -/
theorem owned_lt_next {P : Platform} {w : World V} (hInv : Inv P w)
    {j : Nat} {fj : func V} {a : Addr} (hj : w.fns j = some fj)
    (ha : ownsAddr P fj a) : a < w.heap.next := by
  have hl := (hInv.complete a).mpr ⟨j, fj, hj, ha⟩
  obtain ⟨v, hv⟩ := Option.isSome_iff_exists.mp hl
  exact hInv.heapWF.2 (a, v) (memLookup_mem hv)

/-- Replacing a non-owning entry by another non-owning entry (heap
untouched) preserves the invariant. -/
theorem inv_set_opt_no_owner {P : Platform} {w : World V} (hInv : Inv P w)
    (i : Nat) (o : Option (func V))
    (hwfo : ∀ f, o = some f → FnWF P w.heap f)
    (hno : ∀ f, o = some f → ∀ a, ¬ ownsAddr P f a)
    (hold : ∀ fk, w.fns i = some fk → ∀ a, ¬ ownsAddr P fk a) :
    Inv P ⟨w.heap, Function.update w.fns i o⟩ := by
  refine ⟨?_, ?_, ?_, hInv.heapWF, hInv.counters⟩
  · intro k fk hk
    dsimp only at hk ⊢
    by_cases hki : k = i
    · subst hki
      rw [Function.update_same] at hk
      exact hwfo fk hk
    · rw [Function.update_noteq hki] at hk
      exact hInv.wf k fk hk
  · intro k l fk fl a b hkl hk hl hoa hob
    dsimp only at hk hl
    by_cases hki : k = i
    · subst hki
      rw [Function.update_same] at hk
      exact absurd hoa (hno fk hk a)
    · rw [Function.update_noteq hki] at hk
      by_cases hli : l = i
      · subst hli
        rw [Function.update_same] at hl
        exact absurd hob (hno fl hl b)
      · rw [Function.update_noteq hli] at hl
        exact hInv.distinct k l fk fl a b hkl hk hl hoa hob
  · intro a
    dsimp only
    constructor
    · intro hlk
      obtain ⟨k, fk, hk, hoa⟩ := (hInv.complete a).mp hlk
      by_cases hki : k = i
      · subst hki
        exact absurd hoa (hold fk hk a)
      · exact ⟨k, fk, by rw [Function.update_noteq hki]; exact hk, hoa⟩
    · rintro ⟨k, fk, hk, hoa⟩
      by_cases hki : k = i
      · subst hki
        rw [Function.update_same] at hk
        exact absurd hoa (hno fk hk a)
      · rw [Function.update_noteq hki] at hk
        exact (hInv.complete a).mpr ⟨k, fk, hk, hoa⟩

/-- Installing at `i` (whose old entry, if any, owned nothing) a fresh
large allocation preserves the invariant. -/
theorem inv_alloc_owner {P : Platform} {w : World V} (hInv : Inv P w)
    (i : Nat) (t : Ty) (v : V) (hf : fits_small P t.info = false)
    (hold : ∀ fk, w.fns i = some fk → ∀ a, ¬ ownsAddr P fk a) :
    Inv P ⟨(w.heap.alloc v).1,
      Function.update w.fns i
        (some ⟨Slot.ptr w.heap.next, Desc.ty t⟩)⟩ := by
  have hnewOwns : ∀ a,
      ownsAddr P (⟨Slot.ptr w.heap.next, Desc.ty t⟩ : func V) a →
        a = w.heap.next := by
    rintro a ⟨t', _, _, hs⟩
    injection hs with h
    exact h.symm
  have hOldNe : ∀ k fk a, w.fns k = some fk → ownsAddr P fk a →
      a ≠ w.heap.next := by
    intro k fk a hk ha
    exact Nat.ne_of_lt (owned_lt_next hInv hk ha)
  refine ⟨?_, ?_, ?_, heapWF_alloc v hInv.heapWF, ?_⟩
  · intro k fk hk
    dsimp only at hk ⊢
    by_cases hki : k = i
    · subst hki
      rw [Function.update_same] at hk
      have hfk : (⟨Slot.ptr w.heap.next, Desc.ty t⟩ : func V) = fk := by
        injection hk
      rw [← hfk]
      intro t' hd'
      have htt : t = t' := by injection hd'
      subst htt
      refine ⟨fun hc => absurd hc (by simp [hf]),
        fun _ => ⟨w.heap.next, rfl, ?_⟩⟩
      rw [lookup_alloc]
      simp
    · rw [Function.update_noteq hki] at hk
      exact FnWF_alloc v (hInv.wf k fk hk)
  · intro k l fk fl a b hkl hk hl hoa hob
    dsimp only at hk hl
    by_cases hki : k = i
    · subst hki
      rw [Function.update_same] at hk
      have hfk : (⟨Slot.ptr w.heap.next, Desc.ty t⟩ : func V) = fk := by
        injection hk
      rw [← hfk] at hoa
      have ha : a = w.heap.next := hnewOwns a hoa
      have hli : ¬ l = k := fun hc => hkl hc.symm
      rw [Function.update_noteq hli] at hl
      have hb : b ≠ w.heap.next := hOldNe l fl b hl hob
      rw [ha]
      exact fun hc => hb hc.symm
    · rw [Function.update_noteq hki] at hk
      by_cases hli : l = i
      · subst hli
        rw [Function.update_same] at hl
        have hfl : (⟨Slot.ptr w.heap.next, Desc.ty t⟩ : func V) = fl := by
          injection hl
        rw [← hfl] at hob
        have hb : b = w.heap.next := hnewOwns b hob
        have ha : a ≠ w.heap.next := hOldNe k fk a hk hoa
        rw [hb]
        exact ha
      · rw [Function.update_noteq hli] at hl
        exact hInv.distinct k l fk fl a b hkl hk hl hoa hob
  · intro a
    dsimp only
    constructor
    · intro hlk
      rw [lookup_alloc] at hlk
      by_cases hna : w.heap.next = a
      · refine ⟨i, ⟨Slot.ptr w.heap.next, Desc.ty t⟩,
          Function.update_same i _ w.fns, ⟨t, rfl, hf, ?_⟩⟩
        rw [hna]
      · rw [if_neg hna] at hlk
        obtain ⟨k, fk, hk, hoa⟩ := (hInv.complete a).mp hlk
        have hki : ¬ k = i := fun hc => (hold fk (hc ▸ hk) a) hoa
        exact ⟨k, fk, by rw [Function.update_noteq hki]; exact hk, hoa⟩
    · rintro ⟨k, fk, hk, hoa⟩
      rw [lookup_alloc]
      by_cases hki : k = i
      · subst hki
        rw [Function.update_same] at hk
        have hfk : (⟨Slot.ptr w.heap.next, Desc.ty t⟩ : func V) = fk := by
          injection hk
        rw [← hfk] at hoa
        have ha := hnewOwns a hoa
        simp [ha]
      · rw [Function.update_noteq hki] at hk
        have hl := (hInv.complete a).mpr ⟨k, fk, hk, hoa⟩
        by_cases hna : w.heap.next = a
        · simp [hna]
        · rw [if_neg hna]
          exact hl
  · have hc := hInv.counters
    dsimp only
    simp only [Heap.alloc, List.length_cons]
    omega

/-- Transferring ownership of `q` from entry `j` to entry `i` (whose
old entry, if any, owned nothing), rebinding `j` to a non-owning value,
preserves the invariant (heap untouched). -/
theorem inv_transfer {P : Platform} {w : World V} (hInv : Inv P w)
    (i j : Nat) (hij : i ≠ j) {fj : func V} (hj : w.fns j = some fj)
    (hiNoOwn : ∀ fk, w.fns i = some fk → ∀ a, ¬ ownsAddr P fk a)
    (t : Ty) (q : Addr) (hf : fits_small P t.info = false)
    (hjq : ownsAddr P fj q) (fj' : func V)
    (hwfj' : FnWF P w.heap fj')
    (hnoj' : ∀ a, ¬ ownsAddr P fj' a) :
    Inv P ⟨w.heap,
      Function.update (Function.update w.fns j (some fj')) i
        (some ⟨Slot.ptr q, Desc.ty t⟩)⟩ := by
  have hnewOwns : ∀ a,
      ownsAddr P (⟨Slot.ptr q, Desc.ty t⟩ : func V) a → a = q := by
    rintro a ⟨t', _, _, hs⟩
    injection hs with h
    exact h.symm
  have hqLive : (w.heap.lookup q).isSome = true :=
    (hInv.complete q).mpr ⟨j, fj, hj, hjq⟩
  have hget : ∀ k, ¬ k = i → ¬ k = j →
      Function.update (Function.update w.fns j (some fj')) i
        (some ⟨Slot.ptr q, Desc.ty t⟩) k = w.fns k := by
    intro k hki hkj
    rw [Function.update_noteq hki, Function.update_noteq hkj]
  have hgetj :
      Function.update (Function.update w.fns j (some fj')) i
        (some ⟨Slot.ptr q, Desc.ty t⟩) j = some fj' := by
    rw [Function.update_noteq (fun hc => hij hc.symm), Function.update_same]
  refine ⟨?_, ?_, ?_, hInv.heapWF, hInv.counters⟩
  · intro k fk hk
    dsimp only at hk ⊢
    by_cases hki : k = i
    · subst hki
      rw [Function.update_same] at hk
      have hfk : (⟨Slot.ptr q, Desc.ty t⟩ : func V) = fk := by injection hk
      rw [← hfk]
      intro t' hd'
      have htt : t = t' := by injection hd'
      subst htt
      exact ⟨fun hc => absurd hc (by simp [hf]), fun _ => ⟨q, rfl, hqLive⟩⟩
    · by_cases hkj : k = j
      · subst hkj
        rw [hgetj] at hk
        have hfk : fj' = fk := by injection hk
        rw [← hfk]
        exact hwfj'
      · rw [hget k hki hkj] at hk
        exact hInv.wf k fk hk
  · intro k l fk fl a b hkl hk hl hoa hob
    dsimp only at hk hl
    by_cases hki : k = i
    · subst hki
      rw [Function.update_same] at hk
      have hfk : (⟨Slot.ptr q, Desc.ty t⟩ : func V) = fk := by injection hk
      rw [← hfk] at hoa
      have ha : a = q := hnewOwns a hoa
      by_cases hlj : l = j
      · subst hlj
        rw [hgetj] at hl
        have hfl : fj' = fl := by injection hl
        rw [← hfl] at hob
        exact absurd hob (hnoj' b)
      · have hli : ¬ l = k := fun hc => hkl hc.symm
        rw [hget l hli hlj] at hl
        have hbq : b ≠ q :=
          hInv.distinct l j fl fj b q hlj hl hj hob hjq
        rw [ha]
        exact fun hc => hbq hc.symm
    · by_cases hkj : k = j
      · subst hkj
        rw [hgetj] at hk
        have hfk : fj' = fk := by injection hk
        rw [← hfk] at hoa
        exact absurd hoa (hnoj' a)
      · rw [hget k hki hkj] at hk
        by_cases hli : l = i
        · subst hli
          rw [Function.update_same] at hl
          have hfl : (⟨Slot.ptr q, Desc.ty t⟩ : func V) = fl := by
            injection hl
          rw [← hfl] at hob
          have hb : b = q := hnewOwns b hob
          have haq : a ≠ q :=
            hInv.distinct k j fk fj a q hkj hk hj hoa hjq
          rw [hb]
          exact haq
        · by_cases hlj : l = j
          · subst hlj
            rw [hgetj] at hl
            have hfl : fj' = fl := by injection hl
            rw [← hfl] at hob
            exact absurd hob (hnoj' b)
          · rw [hget l hli hlj] at hl
            exact hInv.distinct k l fk fl a b hkl hk hl hoa hob
  · intro a
    dsimp only
    constructor
    · intro hlk
      obtain ⟨k, fk, hk, hoa⟩ := (hInv.complete a).mp hlk
      by_cases hki : k = i
      · subst hki
        exact absurd hoa (hiNoOwn fk hk a)
      · by_cases hkj : k = j
        · subst hkj
          have hfk : fj = fk := by
            rw [hj] at hk
            injection hk
          rw [← hfk] at hoa
          have ha : a = q := ownsAddr_unique hoa hjq
          refine ⟨i, ⟨Slot.ptr q, Desc.ty t⟩, Function.update_same i _ _,
            ⟨t, rfl, hf, ?_⟩⟩
          rw [ha]
        · exact ⟨k, fk, by rw [hget k hki hkj]; exact hk, hoa⟩
    · rintro ⟨k, fk, hk, hoa⟩
      by_cases hki : k = i
      · subst hki
        rw [Function.update_same] at hk
        have hfk : (⟨Slot.ptr q, Desc.ty t⟩ : func V) = fk := by injection hk
        rw [← hfk] at hoa
        have ha : a = q := hnewOwns a hoa
        rw [ha]
        exact hqLive
      · by_cases hkj : k = j
        · subst hkj
          rw [hgetj] at hk
          have hfk : fj' = fk := by injection hk
          rw [← hfk] at hoa
          exact absurd hoa (hnoj' a)
        · rw [hget k hki hkj] at hk
          exact (hInv.complete a).mpr ⟨k, fk, hk, hoa⟩

/-- Releasing the allocation owned by entry `i` and replacing that
entry by a non-owning value (or removing it) preserves the invariant. -/
theorem inv_free_release {P : Platform} {w : World V} (hInv : Inv P w)
    (i : Nat) {fi : func V} (r : Addr) (hi : w.fns i = some fi)
    (hir : ownsAddr P fi r) (o : Option (func V))
    (hwfo : ∀ f, o = some f → FnWF P (w.heap.free r) f)
    (hno : ∀ f, o = some f → ∀ a, ¬ ownsAddr P f a) :
    Inv P ⟨w.heap.free r, Function.update w.fns i o⟩ := by
  have hrLive : (w.heap.lookup r).isSome = true :=
    (hInv.complete r).mpr ⟨i, fi, hi, hir⟩
  refine ⟨?_, ?_, ?_, heapWF_free r hInv.heapWF, ?_⟩
  · intro k fk hk
    dsimp only at hk ⊢
    by_cases hki : k = i
    · subst hki
      rw [Function.update_same] at hk
      exact hwfo fk hk
    · rw [Function.update_noteq hki] at hk
      refine FnWF_free (hInv.wf k fk hk) ?_
      intro q hq
      exact hInv.distinct k i fk fi q r hki hk hi hq hir
  · intro k l fk fl a b hkl hk hl hoa hob
    dsimp only at hk hl
    by_cases hki : k = i
    · subst hki
      rw [Function.update_same] at hk
      exact absurd hoa (hno fk hk a)
    · rw [Function.update_noteq hki] at hk
      by_cases hli : l = i
      · subst hli
        rw [Function.update_same] at hl
        exact absurd hob (hno fl hl b)
      · rw [Function.update_noteq hli] at hl
        exact hInv.distinct k l fk fl a b hkl hk hl hoa hob
  · intro a
    dsimp only
    constructor
    · intro hlk
      rw [lookup_free] at hlk
      by_cases har : a = r
      · rw [if_pos har] at hlk
        exact absurd hlk (by simp)
      · rw [if_neg har] at hlk
        obtain ⟨k, fk, hk, hoa⟩ := (hInv.complete a).mp hlk
        have hki : ¬ k = i := by
          intro hc
          subst hc
          have hfk : fi = fk := by
            rw [hi] at hk
            injection hk
          rw [← hfk] at hoa
          exact har (ownsAddr_unique hoa hir)
        exact ⟨k, fk, by rw [Function.update_noteq hki]; exact hk, hoa⟩
    · rintro ⟨k, fk, hk, hoa⟩
      by_cases hki : k = i
      · subst hki
        rw [Function.update_same] at hk
        exact absurd hoa (hno fk hk a)
      · rw [Function.update_noteq hki] at hk
        have har : a ≠ r :=
          hInv.distinct k i fk fi a r hki hk hi hoa hir
        rw [lookup_free, if_neg har]
        exact (hInv.complete a).mpr ⟨k, fk, hk, hoa⟩
  · have hc := hInv.counters
    have hrmem : r ∈ w.heap.mem.map Prod.fst :=
      memLookup_isSome_iff.mp hrLive
    have hlen := length_memRemove_of_mem hInv.heapWF.1 hrmem
    dsimp only
    simp only [Heap.free]
    omega

theorem FnWF_of_empty {P : Platform} {H : Heap V} {f : func V}
    (hd : f.desc = Desc.empty) : FnWF P H f := by
  intro t hdt
  rw [hd] at hdt
  exact Desc.noConfusion hdt

theorem FnWF_of_small {P : Platform} {H : Heap V} {f : func V} {t : Ty}
    {v : V} (hd : f.desc = Desc.ty t) (hf : fits_small P t.info = true)
    (hv : f.storage = Slot.inline v) : FnWF P H f := by
  intro t' hdt
  rw [hd] at hdt
  have htt : t = t' := by injection hdt
  subst htt
  exact ⟨fun _ => ⟨v, hv⟩, fun hc => absurd hc (by simp [hf])⟩

/-- Decomposition of a successful copy construction. -/
theorem func_copy_ctor_ok_decomp {P : Platform} {cpThrows : V → Bool}
    {inv : V → A → R} {H H' : Heap V} {g f' : func V}
    (hok : func_copy_ctor P cpThrows inv H g = Except.ok (H', f')) :
    ∃ buf, (descOps P cpThrows inv g.desc).copy H g.storage Slot.junk =
      Except.ok (H', buf) ∧ f' = ⟨buf, g.desc⟩ := by
  unfold func_copy_ctor at hok
  cases hc : (descOps P cpThrows inv g.desc).copy H g.storage Slot.junk with
  | error e =>
    rw [hc] at hok
    exact Except.noConfusion hok
  | ok pair =>
    obtain ⟨H1, buf⟩ := pair
    rw [hc] at hok
    simp only [Except.ok.injEq, Prod.mk.injEq] at hok
    exact ⟨buf, by rw [hok.1], hok.2.symm⟩

/-- An entry that is absent owns nothing (vacuous `hold` premise). -/
theorem hold_of_none {P : Platform} {w : World V} {i : Nat}
    (hfi : w.fns i = none) :
    ∀ fk, w.fns i = some fk → ∀ a, ¬ ownsAddr P fk a := by
  intro fk hk
  rw [hfi] at hk
  exact Option.noConfusion hk

/-- Default construction preserves the invariant. -/
theorem inv_step_newEmpty {P : Platform} {cpThrows : V → Bool}
    {inv : V → A → R} {w : World V} (hInv : Inv P w) (i : Nat) :
    Inv P (step P cpThrows inv w (Op.newEmpty i)) := by
  cases hfi : w.fns i with
  | some f =>
    have hs : step P cpThrows inv w (Op.newEmpty i) = w := by
      simp [step, hfi]
    rw [hs]
    exact hInv
  | none =>
    have hs : step P cpThrows inv w (Op.newEmpty i) =
        ⟨w.heap, Function.update w.fns i (some func_default)⟩ := by
      simp [step, hfi]
    rw [hs]
    refine inv_set_opt_no_owner hInv i _ ?_ ?_ (hold_of_none hfi)
    · intro f hf
      injection hf with h
      rw [← h]
      exact FnWF_of_empty rfl
    · intro f hf a
      injection hf with h
      rw [← h]
      exact not_owns_of_empty rfl a

/-- Construction from a payload value preserves the invariant. -/
theorem inv_step_newFn {P : Platform} {cpThrows : V → Bool}
    {inv : V → A → R} {w : World V} (hInv : Inv P w) (i : Nat) (t : Ty)
    (v : V) :
    Inv P (step P cpThrows inv w (Op.newFn i t v)) := by
  cases hfi : w.fns i with
  | some f =>
    have hs : step P cpThrows inv w (Op.newFn i t v) = w := by
      simp [step, hfi]
    rw [hs]
    exact hInv
  | none =>
    by_cases hf : fits_small P t.info = true
    · have hs : step P cpThrows inv w (Op.newFn i t v) =
          ⟨w.heap, Function.update w.fns i
            (some ⟨Slot.inline v, Desc.ty t⟩)⟩ := by
        simp [step, hfi, func_from_val, hf]
      rw [hs]
      refine inv_set_opt_no_owner hInv i _ ?_ ?_ (hold_of_none hfi)
      · intro f hfeq
        injection hfeq with h
        rw [← h]
        exact FnWF_of_small rfl hf rfl
      · intro f hfeq a
        injection hfeq with h
        rw [← h]
        exact not_owns_of_small rfl hf a
    · have hf' : fits_small P t.info = false := by simpa using hf
      have hs : step P cpThrows inv w (Op.newFn i t v) =
          ⟨(w.heap.alloc v).1, Function.update w.fns i
            (some ⟨Slot.ptr w.heap.next, Desc.ty t⟩)⟩ := by
        simp [step, hfi, func_from_val, hf', Heap.alloc]
      rw [hs]
      exact inv_alloc_owner hInv i t v hf' (hold_of_none hfi)

/-- Copy construction preserves the invariant. -/
theorem inv_step_copyCtor {P : Platform} {cpThrows : V → Bool}
    {inv : V → A → R} {w : World V} (hInv : Inv P w) (i j : Nat) :
    Inv P (step P cpThrows inv w (Op.copyCtor i j)) := by
  cases hfi : w.fns i with
  | some f =>
    have hs : step P cpThrows inv w (Op.copyCtor i j) = w := by
      simp [step, hfi]
    rw [hs]
    exact hInv
  | none =>
    cases hfj : w.fns j with
    | none =>
      have hs : step P cpThrows inv w (Op.copyCtor i j) = w := by
        simp [step, hfi, hfj]
      rw [hs]
      exact hInv
    | some fj =>
      cases hres : func_copy_ctor P cpThrows inv w.heap fj with
      | error e =>
        have hs : step P cpThrows inv w (Op.copyCtor i j) = w := by
          simp [step, hfi, hfj, hres]
        rw [hs]
        exact hInv
      | ok pair =>
        obtain ⟨H', fi'⟩ := pair
        have hs : step P cpThrows inv w (Op.copyCtor i j) =
            ⟨H', Function.update w.fns i (some fi')⟩ := by
          simp [step, hfi, hfj, hres]
        rw [hs]
        obtain ⟨buf, hcopy, hfi'⟩ := func_copy_ctor_ok_decomp hres
        rcases copy_stage_ok_cases hcopy with
          ⟨hdj, hH, hbuf⟩ | ⟨t, v, hdj, hsm, _, hH, hbuf⟩ |
          ⟨t, q, v, hdj, hsm, _, _, hH, hbuf⟩
        · subst hH
          refine inv_set_opt_no_owner hInv i _ ?_ ?_ (hold_of_none hfi)
          · intro f hfeq
            injection hfeq with h
            rw [← h, hfi']
            exact FnWF_of_empty (by rw [hdj])
          · intro f hfeq a
            injection hfeq with h
            rw [← h, hfi']
            exact not_owns_of_empty (by rw [hdj]) a
        · subst hH
          refine inv_set_opt_no_owner hInv i _ ?_ ?_ (hold_of_none hfi)
          · intro f hfeq
            injection hfeq with h
            rw [← h, hfi', hbuf]
            exact FnWF_of_small (by rw [hdj]) hsm rfl
          · intro f hfeq a
            injection hfeq with h
            rw [← h, hfi']
            exact not_owns_of_small (by rw [hdj]) hsm a
        · subst hH
          have hval : fi' = ⟨Slot.ptr w.heap.next, Desc.ty t⟩ := by
            rw [hfi', hbuf, hdj]
          rw [hval]
          exact inv_alloc_owner hInv i t v hsm (hold_of_none hfi)

/-- Move construction preserves the invariant. -/
theorem inv_step_moveCtor {P : Platform} {cpThrows : V → Bool}
    {inv : V → A → R} {w : World V} (hInv : Inv P w) (i j : Nat) :
    Inv P (step P cpThrows inv w (Op.moveCtor i j)) := by
  cases hfi : w.fns i with
  | some f =>
    have hs : step P cpThrows inv w (Op.moveCtor i j) = w := by
      simp [step, hfi]
    rw [hs]
    exact hInv
  | none =>
    cases hfj : w.fns j with
    | none =>
      have hs : step P cpThrows inv w (Op.moveCtor i j) = w := by
        simp [step, hfi, hfj]
      rw [hs]
      exact hInv
    | some fj =>
      have hij : i ≠ j := by
        intro hc
        rw [hc, hfj] at hfi
        exact Option.noConfusion hfi
      have hs : step P cpThrows inv w (Op.moveCtor i j) =
          ⟨w.heap, Function.update
            (Function.update w.fns j
              (some (func_move_ctor P cpThrows inv fj).2)) i
            (some (func_move_ctor P cpThrows inv fj).1)⟩ := by
        simp [step, hfi, hfj]
      rw [hs]
      rcases @func_move_ctor_wf_cases V A R P cpThrows inv w.heap fj
          (hInv.wf j fj hfj) with
        ⟨hdj, hmv⟩ | ⟨t, v, hdj, hsm, _, hmv⟩ |
        ⟨t, q, hdj, hsm, hq, _, hmv⟩
      · rw [hmv]
        have h1 : Inv P ⟨w.heap, Function.update w.fns j
            (some (⟨fj.storage, Desc.empty⟩ : func V))⟩ := by
          refine inv_set_opt_no_owner hInv j _ ?_ ?_ ?_
          · intro f hfeq
            injection hfeq with h
            rw [← h]
            exact FnWF_of_empty rfl
          · intro f hfeq a
            injection hfeq with h
            rw [← h]
            exact not_owns_of_empty rfl a
          · intro fk hk a
            rw [hfj] at hk
            injection hk with h
            rw [← h]
            exact not_owns_of_empty hdj a
        refine inv_set_opt_no_owner h1 i _ ?_ ?_ ?_
        · intro f hfeq
          injection hfeq with h
          rw [← h]
          exact FnWF_of_empty rfl
        · intro f hfeq a
          injection hfeq with h
          rw [← h]
          exact not_owns_of_empty rfl a
        · intro fk hk
          rw [show (⟨w.heap, Function.update w.fns j
              (some (⟨fj.storage, Desc.empty⟩ : func V))⟩ : World V).fns = Function.update w.fns j
              (some (⟨fj.storage, Desc.empty⟩ : func V)) from rfl,
            Function.update_noteq hij, hfi] at hk
          exact Option.noConfusion hk
      · rw [hmv]
        have h1 : Inv P ⟨w.heap, Function.update w.fns j
            (some (⟨Slot.junk, Desc.empty⟩ : func V))⟩ := by
          refine inv_set_opt_no_owner hInv j _ ?_ ?_ ?_
          · intro f hfeq
            injection hfeq with h
            rw [← h]
            exact FnWF_of_empty rfl
          · intro f hfeq a
            injection hfeq with h
            rw [← h]
            exact not_owns_of_empty rfl a
          · intro fk hk a
            rw [hfj] at hk
            injection hk with h
            rw [← h]
            exact not_owns_of_small hdj hsm a
        refine inv_set_opt_no_owner h1 i _ ?_ ?_ ?_
        · intro f hfeq
          injection hfeq with h
          rw [← h]
          exact FnWF_of_small rfl hsm rfl
        · intro f hfeq a
          injection hfeq with h
          rw [← h]
          exact not_owns_of_small rfl hsm a
        · intro fk hk
          rw [show (⟨w.heap, Function.update w.fns j
              (some (⟨Slot.junk, Desc.empty⟩ : func V))⟩ : World V).fns = Function.update w.fns j
              (some (⟨Slot.junk, Desc.empty⟩ : func V)) from rfl,
            Function.update_noteq hij, hfi] at hk
          exact Option.noConfusion hk
      · rw [hmv]
        exact inv_transfer hInv i j hij hfj (hold_of_none hfi) t q hsm
          (owns_of_large hdj hsm hq) _
          (FnWF_of_empty rfl) (not_owns_of_empty rfl)

/-- Copy assignment preserves the invariant. -/
theorem inv_step_copyAssign {P : Platform} {cpThrows : V → Bool}
    {inv : V → A → R} {w : World V} (hInv : Inv P w) (i j : Nat) :
    Inv P (step P cpThrows inv w (Op.copyAssign i j)) := by
  by_cases hij : i = j
  · have hs : step P cpThrows inv w (Op.copyAssign i j) = w := by
      simp [step, hij]
    rw [hs]
    exact hInv
  · cases hfi : w.fns i with
    | none =>
      have hs : step P cpThrows inv w (Op.copyAssign i j) = w := by
        simp [step, hij, hfi]
      rw [hs]
      exact hInv
    | some fi =>
      cases hfj : w.fns j with
      | none =>
        have hs : step P cpThrows inv w (Op.copyAssign i j) = w := by
          simp [step, hij, hfi, hfj]
        rw [hs]
        exact hInv
      | some fj =>
        cases hres : copy_assign P cpThrows inv w.heap fi fj with
        | error e =>
          have hs : step P cpThrows inv w (Op.copyAssign i j) = w := by
            simp [step, hij, hfi, hfj, hres]
          rw [hs]
          exact hInv
        | ok pair =>
          obtain ⟨H2, fi'⟩ := pair
          have hs : step P cpThrows inv w (Op.copyAssign i j) =
              ⟨H2, Function.update w.fns i (some fi')⟩ := by
            simp [step, hij, hfi, hfj, hres]
          rw [hs]
          obtain ⟨H1, buf, hcopy, hH2, hfi'eq⟩ := copy_assign_ok_decomp hres
          rcases copy_stage_ok_cases hcopy with
            ⟨hdj, hH1, hbuf⟩ | ⟨t, v, hdj, hsm, hv, hH1, hbuf⟩ |
            ⟨t, q, v, hdj, hsm, hq, hlq, hH1, hbuf⟩
          · subst hH1
            rcases @destroy_wf_cases V A R P cpThrows inv w.heap fi
                (hInv.wf i fi hfi) with ⟨hH, hno⟩ | ⟨r, hir, hlr, hH⟩
            · have hH2' : H2 = w.heap := hH2.trans hH
              subst hH2'
              refine inv_set_opt_no_owner hInv i _ ?_ ?_ ?_
              · intro f hfeq
                injection hfeq with h
                rw [← h, hfi'eq]
                exact FnWF_of_empty (by rw [hdj])
              · intro f hfeq a
                injection hfeq with h
                rw [← h, hfi'eq]
                exact not_owns_of_empty (by rw [hdj]) a
              · intro fk hk a
                rw [hfi] at hk
                injection hk with h
                rw [← h]
                exact hno a
            · have hH2' : H2 = w.heap.free r := hH2.trans hH
              subst hH2'
              refine inv_free_release hInv i r hfi hir (some fi') ?_ ?_
              · intro f hfeq
                injection hfeq with h
                rw [← h, hfi'eq]
                exact FnWF_of_empty (by rw [hdj])
              · intro f hfeq a
                injection hfeq with h
                rw [← h, hfi'eq]
                exact not_owns_of_empty (by rw [hdj]) a
          · subst hH1
            rcases @destroy_wf_cases V A R P cpThrows inv w.heap fi
                (hInv.wf i fi hfi) with ⟨hH, hno⟩ | ⟨r, hir, hlr, hH⟩
            · have hH2' : H2 = w.heap := hH2.trans hH
              subst hH2'
              refine inv_set_opt_no_owner hInv i _ ?_ ?_ ?_
              · intro f hfeq
                injection hfeq with h
                rw [← h, hfi'eq]
                exact FnWF_of_small (by rw [hdj]) hsm (by rw [hbuf])
              · intro f hfeq a
                injection hfeq with h
                rw [← h, hfi'eq]
                exact not_owns_of_small (by rw [hdj]) hsm a
              · intro fk hk a
                rw [hfi] at hk
                injection hk with h
                rw [← h]
                exact hno a
            · have hH2' : H2 = w.heap.free r := hH2.trans hH
              subst hH2'
              refine inv_free_release hInv i r hfi hir (some fi') ?_ ?_
              · intro f hfeq
                injection hfeq with h
                rw [← h, hfi'eq]
                exact FnWF_of_small (by rw [hdj]) hsm (by rw [hbuf])
              · intro f hfeq a
                injection hfeq with h
                rw [← h, hfi'eq]
                exact not_owns_of_small (by rw [hdj]) hsm a
          · have hwfi1 : FnWF P H1 fi := by
              rw [hH1]
              exact FnWF_alloc v (hInv.wf i fi hfi)
            have hval : fi' = ⟨Slot.ptr w.heap.next, Desc.ty t⟩ := by
              rw [hfi'eq, hbuf, hdj]
            rcases @destroy_wf_cases V A R P cpThrows inv H1 fi hwfi1 with ⟨hH, hno⟩ | ⟨r, hir, hlr, hH⟩
            · have hH2' : H2 = (w.heap.alloc v).1 := by
                rw [hH2, hH, hH1]
              subst hH2'
              rw [hval]
              refine inv_alloc_owner hInv i t v hsm ?_
              intro fk hk a
              rw [hfi] at hk
              injection hk with h
              rw [← h]
              exact hno a
            · have hrn : ¬ w.heap.next = r := by
                have hlt : r < w.heap.next := owned_lt_next hInv hfi hir
                exact fun hc => absurd (hc ▸ hlt) (lt_irrefl _)
              have hH2' : H2 = ((w.heap.free r).alloc v).1 := by
                rw [hH2, hH, hH1, alloc_free_comm _ _ _ hrn]
              subst hH2'
              rw [hval]
              have h1 : Inv P ⟨w.heap.free r, Function.update w.fns i none⟩ :=
                inv_free_release hInv i r hfi hir none
                  (fun f hf => Option.noConfusion hf)
                  (fun f hf => Option.noConfusion hf)
              have h2 := inv_alloc_owner h1 i t v hsm
                (fun fk hk => by
                  rw [show (⟨w.heap.free r, Function.update w.fns i none⟩ :
                      World V).fns = Function.update w.fns i none from rfl,
                    Function.update_same] at hk
                  exact Option.noConfusion hk)
              rw [Function.update_idem] at h2
              exact h2

/-- Move assignment preserves the invariant. -/
theorem inv_step_moveAssign {P : Platform} {cpThrows : V → Bool}
    {inv : V → A → R} {w : World V} (hInv : Inv P w) (i j : Nat) :
    Inv P (step P cpThrows inv w (Op.moveAssign i j)) := by
  by_cases hij : i = j
  · have hs : step P cpThrows inv w (Op.moveAssign i j) = w := by
      simp [step, hij]
    rw [hs]
    exact hInv
  · cases hfi : w.fns i with
    | none =>
      have hs : step P cpThrows inv w (Op.moveAssign i j) = w := by
        simp [step, hij, hfi]
      rw [hs]
      exact hInv
    | some fi =>
      cases hfj : w.fns j with
      | none =>
        have hs : step P cpThrows inv w (Op.moveAssign i j) = w := by
          simp [step, hij, hfi, hfj]
        rw [hs]
        exact hInv
      | some fj =>
        have hji : ¬ j = i := fun hc => hij hc.symm
        have hs : step P cpThrows inv w (Op.moveAssign i j) =
            ⟨(move_assign P cpThrows inv w.heap fi fj).1,
             Function.update (Function.update w.fns i
               (some (move_assign P cpThrows inv w.heap fi fj).2.1)) j
               (some (move_assign P cpThrows inv w.heap fi fj).2.2)⟩ := by
          simp [step, hij, hfi, hfj]
        rw [hs]
        rcases hds : (descOps P cpThrows inv fi.desc).destroy w.heap
          fi.storage with ⟨H1, s1⟩
        rcases @destroy_wf_cases V A R P cpThrows inv w.heap fi
            (hInv.wf i fi hfi) with ⟨hH, hno⟩ | ⟨r, hir, hlr, hH⟩
        all_goals rw [hds] at hH
        all_goals simp only at hH
        -- hH : H1 = w.heap (first case) / H1 = w.heap.free r (second)
        · subst hH
          cases hdj : fj.desc with
          | empty =>
            have hm : move_assign P cpThrows inv w.heap fi fj =
                (w.heap, ⟨s1, Desc.empty⟩, ⟨fj.storage, Desc.empty⟩) := by
              unfold move_assign
              rw [hds, hdj]
              simp [descOps, get_empty_func_descriptor]
            simp only [hm]
            have h1 : Inv P ⟨w.heap, Function.update w.fns i
                (some (⟨s1, Desc.empty⟩ : func V))⟩ := by
              refine inv_set_opt_no_owner hInv i _ ?_ ?_ ?_
              · intro f hfeq
                injection hfeq with h
                rw [← h]
                exact FnWF_of_empty rfl
              · intro f hfeq a
                injection hfeq with h
                rw [← h]
                exact not_owns_of_empty rfl a
              · intro fk hk a
                rw [hfi] at hk
                injection hk with h
                rw [← h]
                exact hno a
            refine inv_set_opt_no_owner h1 j _ ?_ ?_ ?_
            · intro f hfeq
              injection hfeq with h
              rw [← h]
              exact FnWF_of_empty rfl
            · intro f hfeq a
              injection hfeq with h
              rw [← h]
              exact not_owns_of_empty rfl a
            · intro fk hk a
              rw [show (⟨w.heap, Function.update w.fns i
                  (some (⟨s1, Desc.empty⟩ : func V))⟩ : World V).fns =
                  Function.update w.fns i
                    (some (⟨s1, Desc.empty⟩ : func V)) from rfl,
                Function.update_noteq hji, hfj] at hk
              injection hk with h
              rw [← h]
              exact not_owns_of_empty hdj a
          | ty t =>
            have hwfj := hInv.wf j fj hfj
            by_cases hsm : fits_small P t.info = true
            · obtain ⟨v, hv⟩ := (hwfj t hdj).1 hsm
              have hm : move_assign P cpThrows inv w.heap fi fj =
                  (w.heap, ⟨Slot.inline v, Desc.ty t⟩,
                   ⟨Slot.junk, Desc.empty⟩) := by
                unfold move_assign
                rw [hds, hdj, hv]
                simp [descOps, get_descriptor, hsm]
              simp only [hm]
              have h1 : Inv P ⟨w.heap, Function.update w.fns i
                  (some (⟨Slot.inline v, Desc.ty t⟩ : func V))⟩ := by
                refine inv_set_opt_no_owner hInv i _ ?_ ?_ ?_
                · intro f hfeq
                  injection hfeq with h
                  rw [← h]
                  exact FnWF_of_small rfl hsm rfl
                · intro f hfeq a
                  injection hfeq with h
                  rw [← h]
                  exact not_owns_of_small rfl hsm a
                · intro fk hk a
                  rw [hfi] at hk
                  injection hk with h
                  rw [← h]
                  exact hno a
              refine inv_set_opt_no_owner h1 j _ ?_ ?_ ?_
              · intro f hfeq
                injection hfeq with h
                rw [← h]
                exact FnWF_of_empty rfl
              · intro f hfeq a
                injection hfeq with h
                rw [← h]
                exact not_owns_of_empty rfl a
              · intro fk hk a
                rw [show (⟨w.heap, Function.update w.fns i
                    (some (⟨Slot.inline v, Desc.ty t⟩ : func V))⟩ :
                    World V).fns = Function.update w.fns i
                      (some (⟨Slot.inline v, Desc.ty t⟩ : func V)) from rfl,
                  Function.update_noteq hji, hfj] at hk
                injection hk with h
                rw [← h]
                exact not_owns_of_small hdj hsm a
            · have hsm' : fits_small P t.info = false := by simpa using hsm
              obtain ⟨q, hq, _⟩ := (hwfj t hdj).2 hsm'
              have hm : move_assign P cpThrows inv w.heap fi fj =
                  (w.heap, ⟨Slot.ptr q, Desc.ty t⟩,
                   ⟨Slot.ptr q, Desc.empty⟩) := by
                unfold move_assign
                rw [hds, hdj, hq]
                simp [descOps, get_descriptor, hsm']
              simp only [hm]
              have htr := inv_transfer hInv i j hij hfj
                (fun fk hk a => by
                  rw [hfi] at hk
                  injection hk with h
                  rw [← h]
                  exact hno a)
                t q hsm' (owns_of_large hdj hsm' hq)
                (⟨Slot.ptr q, Desc.empty⟩ : func V)
                (FnWF_of_empty rfl) (not_owns_of_empty rfl)
              rw [Function.update_comm hij]
              exact htr
        · subst hH
          cases hdj : fj.desc with
          | empty =>
            have hm : move_assign P cpThrows inv w.heap fi fj =
                (w.heap.free r, ⟨s1, Desc.empty⟩,
                 ⟨fj.storage, Desc.empty⟩) := by
              unfold move_assign
              rw [hds, hdj]
              simp [descOps, get_empty_func_descriptor]
            simp only [hm]
            have h1 : Inv P ⟨w.heap.free r, Function.update w.fns i
                (some (⟨s1, Desc.empty⟩ : func V))⟩ := by
              refine inv_free_release hInv i r hfi hir _ ?_ ?_
              · intro f hfeq
                injection hfeq with h
                rw [← h]
                exact FnWF_of_empty rfl
              · intro f hfeq a
                injection hfeq with h
                rw [← h]
                exact not_owns_of_empty rfl a
            refine inv_set_opt_no_owner h1 j _ ?_ ?_ ?_
            · intro f hfeq
              injection hfeq with h
              rw [← h]
              exact FnWF_of_empty rfl
            · intro f hfeq a
              injection hfeq with h
              rw [← h]
              exact not_owns_of_empty rfl a
            · intro fk hk a
              rw [show (⟨w.heap.free r, Function.update w.fns i
                  (some (⟨s1, Desc.empty⟩ : func V))⟩ : World V).fns =
                  Function.update w.fns i
                    (some (⟨s1, Desc.empty⟩ : func V)) from rfl,
                Function.update_noteq hji, hfj] at hk
              injection hk with h
              rw [← h]
              exact not_owns_of_empty hdj a
          | ty t =>
            have hwfj := hInv.wf j fj hfj
            by_cases hsm : fits_small P t.info = true
            · obtain ⟨v, hv⟩ := (hwfj t hdj).1 hsm
              have hm : move_assign P cpThrows inv w.heap fi fj =
                  (w.heap.free r, ⟨Slot.inline v, Desc.ty t⟩,
                   ⟨Slot.junk, Desc.empty⟩) := by
                unfold move_assign
                rw [hds, hdj, hv]
                simp [descOps, get_descriptor, hsm]
              simp only [hm]
              have h1 : Inv P ⟨w.heap.free r, Function.update w.fns i
                  (some (⟨Slot.inline v, Desc.ty t⟩ : func V))⟩ := by
                refine inv_free_release hInv i r hfi hir _ ?_ ?_
                · intro f hfeq
                  injection hfeq with h
                  rw [← h]
                  exact FnWF_of_small rfl hsm rfl
                · intro f hfeq a
                  injection hfeq with h
                  rw [← h]
                  exact not_owns_of_small rfl hsm a
              refine inv_set_opt_no_owner h1 j _ ?_ ?_ ?_
              · intro f hfeq
                injection hfeq with h
                rw [← h]
                exact FnWF_of_empty rfl
              · intro f hfeq a
                injection hfeq with h
                rw [← h]
                exact not_owns_of_empty rfl a
              · intro fk hk a
                rw [show (⟨w.heap.free r, Function.update w.fns i
                    (some (⟨Slot.inline v, Desc.ty t⟩ : func V))⟩ :
                    World V).fns = Function.update w.fns i
                      (some (⟨Slot.inline v, Desc.ty t⟩ : func V)) from rfl,
                  Function.update_noteq hji, hfj] at hk
                injection hk with h
                rw [← h]
                exact not_owns_of_small hdj hsm a
            · have hsm' : fits_small P t.info = false := by simpa using hsm
              obtain ⟨q, hq, _⟩ := (hwfj t hdj).2 hsm'
              have hm : move_assign P cpThrows inv w.heap fi fj =
                  (w.heap.free r, ⟨Slot.ptr q, Desc.ty t⟩,
                   ⟨Slot.ptr q, Desc.empty⟩) := by
                unfold move_assign
                rw [hds, hdj, hq]
                simp [descOps, get_descriptor, hsm']
              simp only [hm]
              have h1 : Inv P ⟨w.heap.free r, Function.update w.fns i none⟩ :=
                inv_free_release hInv i r hfi hir none
                  (fun f hf => Option.noConfusion hf)
                  (fun f hf => Option.noConfusion hf)
              have htr := inv_transfer h1 i j hij
                (show Function.update w.fns i none j = some fj from by
                  rw [Function.update_noteq hji]
                  exact hfj)
                (fun fk hk => by
                  rw [show (⟨w.heap.free r, Function.update w.fns i none⟩ :
                      World V).fns = Function.update w.fns i none from rfl,
                    Function.update_same] at hk
                  exact Option.noConfusion hk)
                t q hsm' (owns_of_large hdj hsm' hq)
                (⟨Slot.ptr q, Desc.empty⟩ : func V)
                (FnWF_of_empty rfl) (not_owns_of_empty rfl)
              rw [Function.update_comm hij] at htr
              rw [Function.update_idem] at htr
              rw [Function.update_comm hij]
              exact htr

/-- Destruction preserves the invariant. -/
theorem inv_step_destroyFn {P : Platform} {cpThrows : V → Bool}
    {inv : V → A → R} {w : World V} (hInv : Inv P w) (i : Nat) :
    Inv P (step P cpThrows inv w (Op.destroyFn i)) := by
  cases hfi : w.fns i with
  | none =>
    have hs : step P cpThrows inv w (Op.destroyFn i) = w := by
      simp [step, hfi]
    rw [hs]
    exact hInv
  | some fi =>
    have hs : step P cpThrows inv w (Op.destroyFn i) =
        ⟨(func_destroy P cpThrows inv w.heap fi).1,
         Function.update w.fns i none⟩ := by
      simp [step, hfi]
    rw [hs]
    have hproj : (func_destroy P cpThrows inv w.heap fi).1 =
        ((descOps P cpThrows inv fi.desc).destroy w.heap fi.storage).1 := rfl
    rcases @destroy_wf_cases V A R P cpThrows inv w.heap fi
        (hInv.wf i fi hfi) with ⟨hH, hno⟩ | ⟨r, hir, hlr, hH⟩
    · rw [hproj, hH]
      refine inv_set_opt_no_owner hInv i none
        (fun f hf => Option.noConfusion hf)
        (fun f hf => Option.noConfusion hf) ?_
      intro fk hk a
      rw [hfi] at hk
      injection hk with h
      rw [← h]
      exact hno a
    · rw [hproj, hH]
      exact inv_free_release hInv i r hfi hir none
        (fun f hf => Option.noConfusion hf)
        (fun f hf => Option.noConfusion hf)

/-- Every operation of the container state machine preserves the
ownership invariant. -/
theorem inv_step {P : Platform} {cpThrows : V → Bool} {inv : V → A → R}
    {w : World V} (hInv : Inv P w) (op : Op V) :
    Inv P (step P cpThrows inv w op) := by
  cases op with
  | newEmpty i => exact inv_step_newEmpty hInv i
  | newFn i t v => exact inv_step_newFn hInv i t v
  | copyCtor i j => exact inv_step_copyCtor hInv i j
  | moveCtor i j => exact inv_step_moveCtor hInv i j
  | copyAssign i j => exact inv_step_copyAssign hInv i j
  | moveAssign i j => exact inv_step_moveAssign hInv i j
  | destroyFn i => exact inv_step_destroyFn hInv i

/-- The initial state satisfies the invariant. -/
theorem inv_init {P : Platform} : Inv P (World.init : World V) := by
  refine ⟨?_, ?_, ?_, ?_, rfl⟩
  · intro i f h
    exact Option.noConfusion h
  · intro k l fk fl a b _ hk _ _ _
    exact Option.noConfusion hk
  · intro a
    constructor
    · intro h
      simp [World.init, Heap.lookup, memLookup] at h
    · rintro ⟨k, fk, hk, _⟩
      exact Option.noConfusion hk
  · exact ⟨List.nodup_nil, fun p hp => absurd hp (List.not_mem_nil p)⟩

/-- The invariant holds after any chain of operations. -/
theorem inv_run (P : Platform) (cpThrows : V → Bool) (inv : V → A → R)
    (ops : List (Op V)) (w : World V) (hInv : Inv P w) :
    Inv P (run P cpThrows inv w ops) := by
  induction ops generalizing w with
  | nil => exact hInv
  | cons op rest ih => exact ih _ (inv_step hInv op)

/-- The destroy operation never touches the allocation counter. -/
theorem destroy_allocs (P : Platform) (cpThrows : V → Bool)
    (inv : V → A → R) (H : Heap V) (d : Desc) (s : Slot V) :
    (((descOps P cpThrows inv d).destroy H s).1).allocs = H.allocs := by
  cases d with
  | empty => rfl
  | ty t =>
    by_cases hf : fits_small P t.info = true
    · cases s <;> simp [descOps, get_descriptor, hf, Heap.free]
    · have hf' : fits_small P t.info = false := by simpa using hf
      cases s <;> simp [descOps, get_descriptor, hf', Heap.free]

/-- C8: exactly-once ownership of large payloads.  Across any chain of
construct/copy/move/assign/destroy operations from the initial state:
the ownership invariant holds (every heap cell is owned by exactly one
live container — no leak, no dangling owner); the allocation counters
balance the live cells (every allocation not still live was deallocated
exactly once, never twice); once every container is destroyed,
allocations equal deallocations; no two live containers own the same
allocation; moves never allocate; and copying a large payload makes
exactly one fresh allocation. -/
theorem C8_large_ownership_exactly_once (P : Platform)
    (cpThrows : V → Bool) (inv : V → A → R) (ops : List (Op V)) :
    Inv P (run P cpThrows inv World.init ops) ∧
    (run P cpThrows inv World.init ops).heap.allocs =
      (run P cpThrows inv World.init ops).heap.frees +
      (run P cpThrows inv World.init ops).heap.mem.length ∧
    ((∀ i, (run P cpThrows inv World.init ops).fns i = none) →
      (run P cpThrows inv World.init ops).heap.allocs =
        (run P cpThrows inv World.init ops).heap.frees) ∧
    (∀ i j fi fj a, i ≠ j →
      (run P cpThrows inv World.init ops).fns i = some fi →
      (run P cpThrows inv World.init ops).fns j = some fj →
      ownsAddr P fi a → ¬ ownsAddr P fj a) ∧
    (∀ (w : World V) (i j : Nat),
      (step P cpThrows inv w (Op.moveCtor i j)).heap.allocs =
        w.heap.allocs ∧
      (step P cpThrows inv w (Op.moveAssign i j)).heap.allocs =
        w.heap.allocs) ∧
    (∀ (H : Heap V) (g : func V) (t : Ty) (q : Addr) (H' : Heap V)
      (f' : func V),
      g.desc = Desc.ty t → fits_small P t.info = false →
      g.storage = Slot.ptr q →
      func_copy_ctor P cpThrows inv H g = Except.ok (H', f') →
      H'.allocs = H.allocs + 1 ∧ f'.storage = Slot.ptr H.next) := by
  have hI := inv_run P cpThrows inv ops World.init inv_init
  refine ⟨hI, hI.counters, ?_, ?_, ?_, ?_⟩
  · intro hall
    have hc := hI.counters
    cases hm : (run P cpThrows inv World.init ops).heap.mem with
    | nil =>
      rw [hm] at hc
      simpa using hc
    | cons p rest =>
      exfalso
      have hl : (((run P cpThrows inv World.init ops).heap).lookup
          p.1).isSome = true := by
        simp [Heap.lookup, hm, memLookup]
      obtain ⟨k, fk, hk, _⟩ := (hI.complete p.1).mp hl
      rw [hall k] at hk
      exact Option.noConfusion hk
  · intro i j fi fj a hij hi hj hoa hob
    exact (hI.distinct i j fi fj a a hij hi hj hoa hob) rfl
  · intro w i j
    constructor
    · cases hfi : w.fns i with
      | some f => simp [step, hfi]
      | none =>
        cases hfj : w.fns j with
        | none => simp [step, hfi, hfj]
        | some fj => simp [step, hfi, hfj]
    · by_cases hij : i = j
      · simp [step, hij]
      · cases hfi : w.fns i with
        | none => simp [step, hij, hfi]
        | some fi =>
          cases hfj : w.fns j with
          | none => simp [step, hij, hfi, hfj]
          | some fj =>
            have hs : (step P cpThrows inv w (Op.moveAssign i j)).heap =
                (move_assign P cpThrows inv w.heap fi fj).1 := by
              simp [step, hij, hfi, hfj]
            rw [hs]
            exact destroy_allocs P cpThrows inv w.heap fi.desc fi.storage
  · intro H g t q H' f' hd hf hq hok
    obtain ⟨buf, hcopy, hf'⟩ := func_copy_ctor_ok_decomp hok
    rcases copy_stage_ok_cases hcopy with
      ⟨hdj, _, _⟩ | ⟨t2, v2, hdj, hsm, _, _, _⟩ |
      ⟨t2, q2, v2, _, _, _, _, hH, hbuf⟩
    · rw [hd] at hdj
      exact Desc.noConfusion hdj
    · rw [hd] at hdj
      have htt : t = t2 := by injection hdj
      subst htt
      rw [hf] at hsm
      exact Bool.noConfusion hsm
    · constructor
      · rw [hH]
        simp [Heap.alloc]
      · rw [hf', hbuf]

theorem C8_large_ownership_exactly_once_witness :
    (∀ i, (run P64 noThrow addInv World.init
      [Op.newFn 0 tyBig 5, Op.destroyFn 0]).fns i = none) ∧
    (run P64 noThrow addInv World.init
      [Op.newFn 0 tyBig 5, Op.destroyFn 0]).heap.allocs = 1 ∧
    (run P64 noThrow addInv World.init
      [Op.newFn 0 tyBig 5, Op.destroyFn 0]).heap.frees = 1 ∧
    (run P64 noThrow addInv World.init
      [Op.newFn 0 tyBig 5, Op.destroyFn 0]).heap.allocs =
      (run P64 noThrow addInv World.init
        [Op.newFn 0 tyBig 5, Op.destroyFn 0]).heap.frees := by
  have hall : ∀ i, (run P64 noThrow addInv World.init
      [Op.newFn 0 tyBig 5, Op.destroyFn 0]).fns i = none := by
    intro i
    show Function.update (Function.update
        (fun _ => (none : Option (func Nat))) 0
        (some (⟨Slot.ptr 0, Desc.ty tyBig⟩ : func Nat))) 0 none i = none
    by_cases hi : i = 0
    · subst hi
      rw [Function.update_same]
    · rw [Function.update_noteq hi, Function.update_noteq hi]
  have h := (C8_large_ownership_exactly_once P64 noThrow addInv
    [Op.newFn 0 tyBig 5, Op.destroyFn 0]).2.2.1 hall
  exact ⟨hall, rfl, rfl, h⟩

theorem C3_small_classification_witness :
    fits_small P64 tySmall.info = true ∧
    func_from_val P64 H0 tySmall 5 =
      (H0, (⟨Slot.inline 5, Desc.ty tySmall⟩ : func Nat)) ∧
    fits_small P64 tyBig.info = false ∧
    (func_from_val P64 H0 tyBig 5).1.allocs = 1 := by
  have h := C3_small_classification P64 tySmall H0 5
  have h2 := C3_small_classification P64 tyBig H0 5
  refine ⟨by decide, h.2.1 (by decide), by decide, ?_⟩
  rw [h2.2.2.1 (by decide)]
  rfl

end FunctionSpec
